import Mathlib

/-!
Verification development for the crossref-snapshot-mount pipeline
(`scripts/crossref_cleanup.py`, `scripts/loadtobq.py`, `scripts/loadtobq_retry.py`).

The Python sources are shallowly embedded: decoded JSON documents become the
inductive type `Json` below, Python dict update becomes `dictInsert` on
association lists, files become lists of line contents, the object store
becomes an association list from blob names to contents, and every fallible
external call (load-job submission and wait, blob upload) is threaded as an
explicit oracle argument.  Machine-level concerns that the claims do not
touch (gzip framing, float JSON numbers, wall-clock time) are modelled at the
granularity the code observes them: JSON numbers as integers, time slept as a
rational returned by the worker, file size as the number of written lines.

Exceptions are modelled in two layers.  The faithful layer
(`date_parts_to_dateE`, `transformE`) returns `Except`, with `.error`
standing for the one exception the code does not catch: the
`OverflowError` CPython's `datetime.date` raises for an argument outside
C-`int` range, which escapes both `except` handlers of
`date_parts_to_date` and propagates to the per-line `except Exception` of
`process_single_file`.  The guarded layer (`date_parts_to_date`,
`recursively_flatten_date_parts`) collapses that path to the absence
marker; it coincides with the faithful layer on every document satisfying
`noOverflow` (`transformE_eq_total`), and is used where a claim's
hypotheses confine it to that region.
-/

namespace Crossref

/-- A decoded JSON document (output of Python `json.loads`): nulls, booleans,
numbers (Crossref date parts are integers; we model JSON numbers as `Int`),
strings, sequences and mappings.  Mappings are association lists in insertion
order, matching CPython's ordered dicts. -/
inductive Json where
  | null
  | bool (b : Bool)
  | num (n : Int)
  | str (s : String)
  | arr (elems : List Json)
  | obj (fields : List (String × Json))
deriving Repr

/-- Python `x is None` on a decoded JSON value. -/
def Json.isNull : Json → Bool
  | .null => true
  | _ => false

/-- Python truthiness (`bool(x)`) for a decoded JSON value: `None`, `False`,
`0`, `""`, `[]` and `{}` are falsy, everything else truthy. -/
def truthy : Json → Bool
  | .null => false
  | .bool b => b
  | .num n => n != 0
  | .str s => s != ""
  | .arr xs => !xs.isEmpty
  | .obj fs => !fs.isEmpty

/-- Python `int(x)` applied to a decoded JSON value that is not `None`:
booleans coerce to 0/1, numbers are returned, strings are parsed (a parse
failure raises `ValueError`, modelled as `.error`), and sequences/mappings
raise `TypeError` (also `.error`).  `int(None)` raises `TypeError`; the call
sites guard on `is not None`, but the function is total anyway. -/
def pyInt : Json → Except Unit Int
  | .null => .error ()
  | .bool b => .ok (if b then 1 else 0)
  | .num n => .ok n
  | .str s => match s.toInt? with
      | some n => .ok n
      | none => .error ()
  | .arr _ => .error ()
  | .obj _ => .error ()

/-- Gregorian leap-year rule, as used by Python's `datetime.date`. -/
def isLeapYear (y : Int) : Bool :=
  (y % 4 == 0 && y % 100 != 0) || y % 400 == 0

/-- Number of days in a month (`month` is expected in `[1,12]`), matching
`datetime.date`'s validity check. -/
def daysInMonth (y m : Int) : Int :=
  if m == 2 then (if isLeapYear y then 29 else 28)
  else if m == 4 || m == 6 || m == 9 || m == 11 then 30
  else 31

/-- Decimal digits of a `Nat`, zero-padded on the left to `width`. -/
def padNum (width : Nat) (n : Nat) : String :=
  let s := toString n
  if s.length < width then String.mk (List.replicate (width - s.length) '0') ++ s
  else s

/-- C-`int` bounds: CPython's `datetime.date` parses its three arguments
with the `"iii"` format, so an argument outside this range raises
`OverflowError` (not `ValueError`). -/
def C_INT_MIN : Int := -2147483648

def C_INT_MAX : Int := 2147483647

/-- Outcome of a CPython `datetime.date(year, month, day)` call. -/
inductive PyDateResult where
  | ok (s : String)
  | valueError
  | overflowError
deriving Repr, DecidableEq

/-- `datetime.date(year, month, day)` followed by `.isoformat()`: an
argument outside C-`int` range raises `OverflowError`; an in-range but
invalid date (year outside `[1,9999]`, month outside `[1,12]`, or day
invalid for the month) raises `ValueError`; otherwise the ISO string is
produced. -/
def datetime_date (y m d : Int) : PyDateResult :=
  if y < C_INT_MIN ∨ C_INT_MAX < y ∨ m < C_INT_MIN ∨ C_INT_MAX < m
      ∨ d < C_INT_MIN ∨ C_INT_MAX < d then
    .overflowError
  else if 1 ≤ y ∧ y ≤ 9999 ∧ 1 ≤ m ∧ m ≤ 12 ∧ 1 ≤ d ∧ d ≤ daysInMonth y m then
    .ok (padNum 4 y.toNat ++ "-" ++ padNum 2 m.toNat ++ "-" ++ padNum 2 d.toNat)
  else .valueError

/-- `year = int(year_part) if year_part is not None else None`
(`.error` = a `ValueError`/`TypeError` raised by `int`). -/
def yearOf (yp : Json) : Except Unit (Option Int) :=
  if yp.isNull then .ok none else (pyInt yp).map some

/-- `int(part) if part is not None else (1 if year is not None else None)`
— the month/day line of `date_parts_to_date`. -/
def partOf (p : Json) (year : Option Int) : Except Unit (Option Int) :=
  if p.isNull then .ok (if year.isSome then some 1 else none)
  else (pyInt p).map some

/-- The guard-and-parse prefix of `date_parts_to_date`
(`scripts/crossref_cleanup.py` lines 60-64): the two leading guards reject a
non-list, an empty list, and a falsy or non-list first element (returning
`None`, i.e. `.ok none`); the year/month/day are extracted with defaults
(month/day default to 1 when a year is present; a part is Python `None`
both when its index is absent and when the element is JSON null); month is
clamped to `[1,12]` and day to `[1,31]`.  `.error` is a raised
`ValueError`/`TypeError` from the `int` conversions; `.ok none` means the
function returns `None` before reaching date construction. -/
def ymdOf (input_list : Json) : Except Unit (Option (Int × Int × Int)) :=
  match input_list with
  | .arr (first :: _) =>
    if truthy first then
      match first with
      | .arr (yp :: restParts) =>
          match yearOf yp with
          | .error e => .error e
          | .ok year =>
              match partOf (restParts.getD 0 Json.null) year with
              | .error e => .error e
              | .ok month =>
                  match partOf (restParts.getD 1 Json.null) year with
                  | .error e => .error e
                  | .ok day =>
                      match year, month, day with
                      | some y, some m, some d =>
                          .ok (some (y, max 1 (min 12 m), max 1 (min 31 d)))
                      | _, _, _ => .ok none
      | _ => .ok none
    else .ok none
  | _ => .ok none

/-- The exception-faithful model of `date_parts_to_date` from
`scripts/crossref_cleanup.py`.  The inner `except ValueError` (line 68)
catches the date constructor's `ValueError` and returns `None`; the outer
`except (ValueError, TypeError, IndexError)` (line 70) catches the `int`
conversion errors and returns `None`; an `OverflowError` from
`datetime.date` (year outside C-`int` range) is caught by neither handler
and escapes — modelled as `.error ()`. -/
def date_parts_to_dateE (input_list : Json) : Except Unit (Option String) :=
  match ymdOf input_list with
  | .error _ => .ok none
  | .ok none => .ok none
  | .ok (some (y, m, d)) =>
      match datetime_date y m d with
      | .ok s => .ok (some s)
      | .valueError => .ok none
      | .overflowError => .error ()

/-- The guarded projection of `date_parts_to_dateE`: the uncaught
`OverflowError` path is collapsed to the absence marker.  It agrees with
the faithful model on every input where the real function does not raise
(`dpd_ok_of_isOk`), and is the conversion used inside the total transform
`recursively_flatten_date_parts`, whose consumers' properties cannot
exercise the overflow path. -/
def date_parts_to_date (input_list : Json) : Option String :=
  match date_parts_to_dateE input_list with
  | .ok o => o
  | .error _ => none

/-- The Python return value of `date_parts_to_date` as stored in a document:
`None` is JSON null (the absence marker), a date string is a JSON string. -/
def optToJson : Option String → Json
  | none => .null
  | some s => .str s

/-- CPython dict assignment `d[k] = v` on an association list in insertion
order: if the key is present its value is replaced in place, otherwise the
pair is appended. -/
def dictInsert (k : String) (v : Json) (fields : List (String × Json)) : List (String × Json) :=
  if fields.any (fun p => p.1 == k) then
    fields.map (fun p => if p.1 = k then (k, v) else p)
  else fields ++ [(k, v)]

mutual
/-- `recursively_flatten_date_parts` from `scripts/crossref_cleanup.py`:
recursively searches for a `date-parts` key and converts it to a `date` key;
mappings are rebuilt field by field into a fresh dict (`new_obj`), sequences
are mapped elementwise, scalars are returned unchanged.  This is the
guarded, total form: it uses the projected `date_parts_to_date`, so the
uncaught `OverflowError` path is collapsed to the absence marker.  The
exception-faithful form is `transformE` below; the two agree exactly on
documents satisfying `noOverflow` (`transformE_eq_total`). -/
def recursively_flatten_date_parts : Json → Json
  | .null => .null
  | .bool b => .bool b
  | .num n => .num n
  | .str s => .str s
  | .arr xs => .arr (flattenElems xs)
  | .obj fields => .obj (flattenFields fields [])

/-- Elementwise recursion over a JSON sequence (the list comprehension in
`recursively_flatten_date_parts`). -/
def flattenElems : List Json → List Json
  | [] => []
  | x :: xs => recursively_flatten_date_parts x :: flattenElems xs

/-- The `for key, value in obj.items()` loop of
`recursively_flatten_date_parts`, building `new_obj` (the accumulator) by
dict assignment: a `date-parts` key assigns `new_obj["date"]`, any other key
assigns the recursively transformed value at the same key. -/
def flattenFields : List (String × Json) → List (String × Json) → List (String × Json)
  | [], acc => acc
  | (k, v) :: rest, acc =>
      if k = "date-parts" then
        flattenFields rest (dictInsert "date" (optToJson (date_parts_to_date v)) acc)
      else
        flattenFields rest (dictInsert k (recursively_flatten_date_parts v) acc)
end

mutual
/-- Modelled from the spec's words (section 4.1) for comparison with the code:
"structurally identical value except every mapping containing the date-parts
key has that key replaced by a `date` key", all other keys, elements and
scalars unchanged — i.e. a plain elementwise map over mappings, with no
dict-assignment collapsing. -/
def transformSpec : Json → Json
  | .null => .null
  | .bool b => .bool b
  | .num n => .num n
  | .str s => .str s
  | .arr xs => .arr (transformSpecElems xs)
  | .obj fields => .obj (transformSpecFields fields)

/-- Elementwise spec-side recursion over a sequence. -/
def transformSpecElems : List Json → List Json
  | [] => []
  | x :: xs => transformSpec x :: transformSpecElems xs

/-- Spec-side field map: `date-parts` is replaced in place by `date`, every
other field keeps its key and recurses into its value. -/
def transformSpecFields : List (String × Json) → List (String × Json)
  | [] => []
  | (k, v) :: rest =>
      (if k = "date-parts" then ("date", optToJson (date_parts_to_date v))
       else (k, transformSpec v)) :: transformSpecFields rest
end

mutual
/-- Every mapping anywhere in the document has pairwise-distinct keys.  This
is inherent to any value decoded by `json.loads` (Python dicts cannot hold a
key twice); our association-list model is wider, so the property is stated
explicitly where a claim quantifies over decoded documents. -/
def uniqueKeys : Json → Bool
  | .null => true
  | .bool _ => true
  | .num _ => true
  | .str _ => true
  | .arr xs => uniqueKeysElems xs
  | .obj fields => decide ((fields.map Prod.fst).Nodup) && uniqueKeysFields fields

def uniqueKeysElems : List Json → Bool
  | [] => true
  | x :: xs => uniqueKeys x && uniqueKeysElems xs

def uniqueKeysFields : List (String × Json) → Bool
  | [] => true
  | p :: rest => uniqueKeys p.2 && uniqueKeysFields rest
end

mutual
/-- No mapping anywhere in the document contains both a `date-parts` key and
a `date` key. -/
def noCollision : Json → Bool
  | .null => true
  | .bool _ => true
  | .num _ => true
  | .str _ => true
  | .arr xs => noCollisionElems xs
  | .obj fields =>
      !((fields.map Prod.fst).contains "date-parts" && (fields.map Prod.fst).contains "date")
        && noCollisionFields fields

def noCollisionElems : List Json → Bool
  | [] => true
  | x :: xs => noCollision x && noCollisionElems xs

def noCollisionFields : List (String × Json) → Bool
  | [] => true
  | p :: rest => noCollision p.2 && noCollisionFields rest
end

mutual
/-- No mapping anywhere in the document contains a `date-parts` key ("no
further date-part substructures"). -/
def noDatePartsKey : Json → Bool
  | .null => true
  | .bool _ => true
  | .num _ => true
  | .str _ => true
  | .arr xs => noDatePartsKeyElems xs
  | .obj fields => !((fields.map Prod.fst).contains "date-parts") && noDatePartsKeyFields fields

def noDatePartsKeyElems : List Json → Bool
  | [] => true
  | x :: xs => noDatePartsKey x && noDatePartsKeyElems xs

def noDatePartsKeyFields : List (String × Json) → Bool
  | [] => true
  | p :: rest => noDatePartsKey p.2 && noDatePartsKeyFields rest
end

/-- Whether a Python call modelled in `Except Unit` returned normally. -/
def isOkE {α : Type} : Except Unit α → Bool
  | .ok _ => true
  | .error _ => false

mutual
/-- The exception-faithful recursive transform: identical traversal to
`recursively_flatten_date_parts`, but a `date-parts` conversion that raises
an uncaught `OverflowError` propagates out of the whole recursion (there is
no handler inside `recursively_flatten_date_parts`). -/
def transformE : Json → Except Unit Json
  | .null => .ok .null
  | .bool b => .ok (.bool b)
  | .num n => .ok (.num n)
  | .str s => .ok (.str s)
  | .arr xs =>
      match flattenElemsE xs with
      | .ok ys => .ok (.arr ys)
      | .error e => .error e
  | .obj fields =>
      match flattenFieldsE fields [] with
      | .ok out => .ok (.obj out)
      | .error e => .error e

/-- Elementwise faithful recursion over a sequence (first raise wins, as in
the Python list comprehension). -/
def flattenElemsE : List Json → Except Unit (List Json)
  | [] => .ok []
  | x :: xs =>
      match transformE x with
      | .ok y =>
          match flattenElemsE xs with
          | .ok ys => .ok (y :: ys)
          | .error e => .error e
      | .error e => .error e

/-- The faithful `new_obj` loop: a raising `date_parts_to_dateE` (or a raise
from a nested value) aborts the whole iteration. -/
def flattenFieldsE : List (String × Json) → List (String × Json) →
    Except Unit (List (String × Json))
  | [], acc => .ok acc
  | (k, v) :: rest, acc =>
      if k = "date-parts" then
        match date_parts_to_dateE v with
        | .ok o => flattenFieldsE rest (dictInsert "date" (optToJson o) acc)
        | .error e => .error e
      else
        match transformE v with
        | .ok w => flattenFieldsE rest (dictInsert k w acc)
        | .error e => .error e
end

mutual
/-- No `date-parts` value anywhere in the document makes the conversion
raise (the uncaught `OverflowError` path): exactly the documents on which
the real transform terminates normally. -/
def noOverflow : Json → Bool
  | .null => true
  | .bool _ => true
  | .num _ => true
  | .str _ => true
  | .arr xs => noOverflowElems xs
  | .obj fields => noOverflowFields fields

def noOverflowElems : List Json → Bool
  | [] => true
  | x :: xs => noOverflow x && noOverflowElems xs

def noOverflowFields : List (String × Json) → Bool
  | [] => true
  | (k, v) :: rest =>
      (if k = "date-parts" then isOkE (date_parts_to_dateE v) else noOverflow v)
        && noOverflowFields rest
end

theorem dpd_ok_of_isOk {v : Json} (h : isOkE (date_parts_to_dateE v) = true) :
    date_parts_to_dateE v = .ok (date_parts_to_date v) := by
  unfold date_parts_to_date
  cases hE : date_parts_to_dateE v with
  | ok o => rfl
  | error e => rw [hE] at h; exact absurd h (by simp [isOkE])

theorem noOverflowElems_mem {xs : List Json} (h : noOverflowElems xs = true) :
    ∀ x ∈ xs, noOverflow x = true := by
  induction xs with
  | nil => intro x hx; simp at hx
  | cons y ys ih =>
      rw [noOverflowElems, Bool.and_eq_true] at h
      intro x hx
      rcases List.mem_cons.1 hx with rfl | hx
      · exact h.1
      · exact ih h.2 x hx

theorem noOverflowFields_mem_dp {fs : List (String × Json)}
    (h : noOverflowFields fs = true) :
    ∀ q ∈ fs, q.1 = "date-parts" → isOkE (date_parts_to_dateE q.2) = true := by
  induction fs with
  | nil => intro q hq; simp at hq
  | cons p ps ih =>
      obtain ⟨k, v⟩ := p
      rw [noOverflowFields, Bool.and_eq_true] at h
      intro q hq hk
      rcases List.mem_cons.1 hq with rfl | hq
      · have h1 := h.1
        rw [if_pos hk] at h1
        exact h1
      · exact ih h.2 q hq hk

theorem noOverflowFields_mem_val {fs : List (String × Json)}
    (h : noOverflowFields fs = true) :
    ∀ q ∈ fs, ¬ q.1 = "date-parts" → noOverflow q.2 = true := by
  induction fs with
  | nil => intro q hq; simp at hq
  | cons p ps ih =>
      obtain ⟨k, v⟩ := p
      rw [noOverflowFields, Bool.and_eq_true] at h
      intro q hq hk
      rcases List.mem_cons.1 hq with rfl | hq
      · have h1 := h.1
        rw [if_neg hk] at h1
        exact h1
      · exact ih h.2 q hq hk

theorem flattenElemsE_of {xs : List Json}
    (h : ∀ x ∈ xs, transformE x = .ok (recursively_flatten_date_parts x)) :
    flattenElemsE xs = .ok (flattenElems xs) := by
  induction xs with
  | nil => rfl
  | cons x xs ih =>
      rw [flattenElemsE, h x (List.mem_cons_self ..),
        ih fun y hy => h y (List.mem_cons_of_mem _ hy), flattenElems]

theorem flattenFieldsE_of :
    ∀ (fields acc : List (String × Json)),
      (∀ q ∈ fields, ¬ q.1 = "date-parts" →
        transformE q.2 = .ok (recursively_flatten_date_parts q.2)) →
      (∀ q ∈ fields, q.1 = "date-parts" → isOkE (date_parts_to_dateE q.2) = true) →
      flattenFieldsE fields acc = .ok (flattenFields fields acc) := by
  intro fields
  induction fields with
  | nil => intro acc _ _; rfl
  | cons p ps ih =>
      intro acc hval hdp
      obtain ⟨k, v⟩ := p
      rw [flattenFieldsE, flattenFields]
      by_cases hk : k = "date-parts"
      · rw [if_pos hk, if_pos hk, dpd_ok_of_isOk (hdp (k, v) (List.mem_cons_self ..) hk)]
        exact ih _ (fun q hq => hval q (List.mem_cons_of_mem _ hq))
          (fun q hq => hdp q (List.mem_cons_of_mem _ hq))
      · rw [if_neg hk, if_neg hk, hval (k, v) (List.mem_cons_self ..) hk]
        exact ih _ (fun q hq => hval q (List.mem_cons_of_mem _ hq))
          (fun q hq => hdp q (List.mem_cons_of_mem _ hq))

/-- On every document where no date conversion overflows, the
exception-faithful transform terminates normally and agrees with the
guarded total transform. -/
theorem transformE_eq_total : ∀ (D : Json), noOverflow D = true →
    transformE D = .ok (recursively_flatten_date_parts D)
  | .null, _ => rfl
  | .bool _, _ => rfl
  | .num _, _ => rfl
  | .str _, _ => rfl
  | .arr xs, h => by
      rw [noOverflow] at h
      rw [transformE, recursively_flatten_date_parts,
        flattenElemsE_of fun x hx => transformE_eq_total x (noOverflowElems_mem h x hx)]
  | .obj fields, h => by
      rw [noOverflow] at h
      rw [transformE, recursively_flatten_date_parts,
        flattenFieldsE_of fields []
          (fun q hq hk => transformE_eq_total q.2 (noOverflowFields_mem_val h q hq hk))
          (fun q hq hk => noOverflowFields_mem_dp h q hq hk)]
termination_by D => sizeOf D
decreasing_by
  all_goals simp_wf
  · have hlt := List.sizeOf_lt_of_mem hx
    omega
  · have hlt := List.sizeOf_lt_of_mem hq
    obtain ⟨a, b⟩ := q
    simp only [Prod.mk.sizeOf_spec] at hlt ⊢
    omega

/-- The faithful conversion raises exactly when the parsed year/month/day
reach date construction with a component outside C-`int` range (after the
clamps this can only be the year). -/
theorem dpdE_error_iff (v : Json) :
    date_parts_to_dateE v = Except.error () ↔
      ∃ y m d, ymdOf v = Except.ok (some (y, m, d)) ∧
        (y < C_INT_MIN ∨ C_INT_MAX < y ∨ m < C_INT_MIN ∨ C_INT_MAX < m
          ∨ d < C_INT_MIN ∨ C_INT_MAX < d) := by
  unfold date_parts_to_dateE
  cases hy : ymdOf v with
  | error e => simp
  | ok o =>
      cases o with
      | none => simp
      | some t =>
          obtain ⟨y, md⟩ := t
          obtain ⟨m, d⟩ := md
          dsimp only
          by_cases hov : y < C_INT_MIN ∨ C_INT_MAX < y ∨ m < C_INT_MIN ∨ C_INT_MAX < m
              ∨ d < C_INT_MIN ∨ C_INT_MAX < d
          · have hdd : datetime_date y m d = .overflowError := by
              unfold datetime_date
              rw [if_pos hov]
            rw [hdd]
            exact iff_of_true rfl ⟨y, m, d, rfl, hov⟩
          · refine iff_of_false ?_ ?_
            · intro h
              cases hdt : datetime_date y m d with
              | ok s => rw [hdt] at h; simp at h
              | valueError => rw [hdt] at h; simp at h
              | overflowError =>
                  unfold datetime_date at hdt
                  rw [if_neg hov] at hdt
                  split at hdt <;> exact PyDateResult.noConfusion hdt
            · rintro ⟨y', m', d', hy', hP⟩
              have h1 : y = y' ∧ m = m' ∧ d = d' := by simpa using hy'
              obtain ⟨rfl, rfl, rfl⟩ := h1
              exact hov hP

/-- A document whose faithful transform returns a JSON null was the JSON
null itself. -/
theorem transformE_ok_null_iff (j : Json) :
    transformE j = Except.ok Json.null ↔ j = Json.null := by
  cases j with
  | null => simp [transformE]
  | bool b => simp [transformE]
  | num n => simp [transformE]
  | str s => simp [transformE]
  | arr xs =>
      cases hf : flattenElemsE xs <;> simp [transformE, hf]
  | obj fields =>
      cases hf : flattenFieldsE fields [] <;> simp [transformE, hf]

/-- The rewrite the `new_obj` loop applies to one field. -/
def stepFlatten (p : String × Json) : String × Json :=
  if p.1 = "date-parts" then ("date", optToJson (date_parts_to_date p.2))
  else (p.1, recursively_flatten_date_parts p.2)

/-- The key under which the `new_obj` loop stores a field. -/
def outKey (k : String) : String := if k = "date-parts" then "date" else k

theorem stepFlatten_fst (p : String × Json) : (stepFlatten p).1 = outKey p.1 := by
  unfold stepFlatten outKey; split <;> rfl

theorem mem_dictInsert {p : String × Json} {k : String} {v : Json}
    {l : List (String × Json)} (h : p ∈ dictInsert k v l) : p = (k, v) ∨ p ∈ l := by
  unfold dictInsert at h
  split at h
  · rcases List.mem_map.1 h with ⟨q, hq, hpq⟩
    by_cases hk : q.1 = k
    · rw [if_pos hk] at hpq
      exact .inl hpq.symm
    · rw [if_neg hk] at hpq
      exact .inr (hpq ▸ hq)
  · rcases List.mem_append.1 h with h | h
    · exact .inr h
    · exact .inl (by simpa using h)

theorem dictInsert_of_not_mem {k : String} {v : Json} {l : List (String × Json)}
    (h : ¬ k ∈ l.map Prod.fst) : dictInsert k v l = l ++ [(k, v)] := by
  unfold dictInsert
  rw [if_neg]
  intro hany
  rcases List.any_eq_true.1 hany with ⟨q, hq, hqk⟩
  exact h (List.mem_map.2 ⟨q, hq, by simpa using beq_iff_eq.1 hqk⟩)

theorem keys_dictInsert (k : String) (v : Json) (l : List (String × Json)) :
    (dictInsert k v l).map Prod.fst =
      if k ∈ l.map Prod.fst then l.map Prod.fst else l.map Prod.fst ++ [k] := by
  by_cases hmem : k ∈ l.map Prod.fst
  · rw [if_pos hmem]
    unfold dictInsert
    rw [if_pos]
    · rw [List.map_map]
      refine List.map_congr_left fun p hp => ?_
      by_cases hk : p.1 = k
      · simp [Function.comp, hk]
      · simp [Function.comp, hk]
    · rcases List.mem_map.1 hmem with ⟨q, hq, hqk⟩
      exact List.any_eq_true.2 ⟨q, hq, by simpa using hqk⟩
  · rw [if_neg hmem, dictInsert_of_not_mem hmem, List.map_append]
    rfl

theorem keys_dictInsert_nodup {k : String} {v : Json} {l : List (String × Json)}
    (h : (l.map Prod.fst).Nodup) : ((dictInsert k v l).map Prod.fst).Nodup := by
  rw [keys_dictInsert]
  split
  · exact h
  · rename_i hnotin
    refine List.nodup_append.2 ⟨h, List.nodup_singleton _, ?_⟩
    intro a ha hb
    simp only [List.mem_singleton] at hb
    subst hb
    exact hnotin ha

theorem mem_keys_dictInsert {a k : String} {v : Json} {l : List (String × Json)}
    (h : a ∈ (dictInsert k v l).map Prod.fst) : a = k ∨ a ∈ l.map Prod.fst := by
  rw [keys_dictInsert] at h
  split at h
  · exact .inr h
  · rcases List.mem_append.1 h with h | h
    · exact .inr h
    · exact .inl (by simpa using h)

theorem flattenFields_mem {p : String × Json} :
    ∀ {fields acc : List (String × Json)}, p ∈ flattenFields fields acc →
      p ∈ acc ∨ ∃ q ∈ fields, p = stepFlatten q := by
  intro fields
  induction fields with
  | nil => intro acc h; exact .inl h
  | cons hd tl ih =>
      intro acc h
      obtain ⟨k, v⟩ := hd
      rw [flattenFields] at h
      split at h
      all_goals
        rcases ih h with hacc | ⟨q, hq, hpq⟩
        · rcases mem_dictInsert hacc with rfl | hin
          · exact .inr ⟨(k, v), List.mem_cons_self .., by simp [stepFlatten, *]⟩
          · exact .inl hin
        · exact .inr ⟨q, List.mem_cons_of_mem _ hq, hpq⟩

theorem flattenFields_keys_nodup :
    ∀ (fields : List (String × Json)) {acc : List (String × Json)},
      (acc.map Prod.fst).Nodup → ((flattenFields fields acc).map Prod.fst).Nodup := by
  intro fields
  induction fields with
  | nil => intro acc h; exact h
  | cons hd tl ih =>
      intro acc h
      obtain ⟨k, v⟩ := hd
      rw [flattenFields]
      split
      all_goals exact ih (keys_dictInsert_nodup h)

theorem flattenFields_eq_append :
    ∀ (fields acc : List (String × Json)),
      (fields.map fun p => outKey p.1).Nodup →
      (∀ q ∈ fields, ¬ outKey q.1 ∈ acc.map Prod.fst) →
      flattenFields fields acc = acc ++ fields.map stepFlatten := by
  intro fields
  induction fields with
  | nil => intro acc _ _; simp [flattenFields]
  | cons hd tl ih =>
      intro acc hnd hdisj
      obtain ⟨k, v⟩ := hd
      have hknotin : ¬ outKey k ∈ acc.map Prod.fst := hdisj (k, v) (List.mem_cons_self ..)
      have hins : ∀ w, dictInsert (outKey k) w acc = acc ++ [(outKey k, w)] :=
        fun w => dictInsert_of_not_mem hknotin
      have hnd' : (tl.map fun p => outKey p.1).Nodup := (List.nodup_cons.1 hnd).2
      have hknot : ¬ (outKey k) ∈ tl.map fun p => outKey p.1 := (List.nodup_cons.1 hnd).1
      have hdisj' : ∀ q ∈ tl, ¬ outKey q.1 ∈ (acc ++ [stepFlatten (k, v)]).map Prod.fst := by
        intro q hq
        rw [List.map_append]
        intro hmem
        rcases List.mem_append.1 hmem with hmem | hmem
        · exact hdisj q (List.mem_cons_of_mem _ hq) hmem
        · simp [stepFlatten_fst] at hmem
          exact hknot (hmem ▸ List.mem_map.2 ⟨q, hq, rfl⟩)
      rw [flattenFields]
      split
      · have hk : k = "date-parts" := by assumption
        have : dictInsert "date" (optToJson (date_parts_to_date v)) acc
            = acc ++ [stepFlatten (k, v)] := by
          simpa [stepFlatten, hk, outKey] using hins (optToJson (date_parts_to_date v))
        rw [this, ih _ hnd' hdisj']
        simp [stepFlatten, hk]
      · have hk : ¬ k = "date-parts" := by assumption
        have : dictInsert k (recursively_flatten_date_parts v) acc
            = acc ++ [stepFlatten (k, v)] := by
          simpa [stepFlatten, hk, outKey] using hins (recursively_flatten_date_parts v)
        rw [this, ih _ hnd' hdisj']
        simp [stepFlatten, hk]

theorem outKey_ne_dp (k : String) : outKey k ≠ "date-parts" := by
  unfold outKey
  split
  · decide
  · assumption

theorem stepFlatten_of_ne {p : String × Json} (h : p.1 ≠ "date-parts") :
    stepFlatten p = (p.1, recursively_flatten_date_parts p.2) := by
  unfold stepFlatten
  rw [if_neg h]

theorem rf_optToJson (o : Option String) :
    recursively_flatten_date_parts (optToJson o) = optToJson o := by
  cases o <;> rfl

theorem outKeys_nodup {keys : List String} (hnd : keys.Nodup)
    (hnc : ¬ ("date-parts" ∈ keys ∧ "date" ∈ keys)) : (keys.map outKey).Nodup := by
  refine hnd.map_on ?_
  intro x hx y hy hxy
  unfold outKey at hxy
  split at hxy <;> split at hxy
  · rename_i h1 h2; rw [h1, h2]
  · rename_i h1 h2
    exact absurd ⟨h1 ▸ hx, hxy ▸ hy⟩ hnc
  · rename_i h1 h2
    exact absurd ⟨h2 ▸ hy, hxy ▸ hx⟩ hnc
  · exact hxy

/-- Keys and fields of a transformed mapping: every field of
`flattenFields fields []` is the rewrite of some source field, so its key is
never `date-parts`, and the keys are pairwise distinct. -/
theorem flattenFields_out_props (fields : List (String × Json)) :
    ((flattenFields fields []).map Prod.fst).Nodup ∧
      ∀ p ∈ flattenFields fields [], p.1 ≠ "date-parts" := by
  refine ⟨flattenFields_keys_nodup fields (by simp), ?_⟩
  intro p hp
  rcases flattenFields_mem hp with h | ⟨q, _, rfl⟩
  · simp at h
  · rw [stepFlatten_fst]
    exact outKey_ne_dp q.1

theorem flattenElems_idem_of {xs : List Json}
    (h : ∀ x ∈ xs, recursively_flatten_date_parts (recursively_flatten_date_parts x)
      = recursively_flatten_date_parts x) :
    flattenElems (flattenElems xs) = flattenElems xs := by
  induction xs with
  | nil => rfl
  | cons x xs ih =>
      rw [flattenElems, flattenElems, h x (List.mem_cons_self ..),
        ih fun y hy => h y (List.mem_cons_of_mem _ hy)]

/-- The transformer is idempotent: a second pass over a transformed document
changes nothing, because the first pass leaves no `date-parts` key anywhere
and transformed dicts have distinct keys. -/
theorem flatten_idem : ∀ (D : Json),
    recursively_flatten_date_parts (recursively_flatten_date_parts D)
      = recursively_flatten_date_parts D
  | .null => rfl
  | .bool _ => rfl
  | .num _ => rfl
  | .str _ => rfl
  | .arr xs => by
      rw [recursively_flatten_date_parts, recursively_flatten_date_parts]
      exact congrArg Json.arr (flattenElems_idem_of fun x hx => flatten_idem x)
  | .obj fields => by
      rw [recursively_flatten_date_parts, recursively_flatten_date_parts]
      refine congrArg Json.obj ?_
      obtain ⟨hnd, hnodp⟩ := flattenFields_out_props fields
      have hkeys : ((flattenFields fields []).map fun p => outKey p.1)
          = (flattenFields fields []).map Prod.fst := by
        refine List.map_congr_left fun p hp => ?_
        unfold outKey
        rw [if_neg (hnodp p hp)]
      have happ := flattenFields_eq_append (flattenFields fields []) []
        (hkeys ▸ hnd) (by simp)
      rw [happ, List.nil_append]
      have hid : ∀ p ∈ flattenFields fields [], stepFlatten p = p := by
        intro p hp
        rcases flattenFields_mem hp with h | ⟨q, hq, rfl⟩
        · simp at h
        · by_cases hdp : q.1 = "date-parts"
          · rw [stepFlatten_of_ne (by rw [stepFlatten_fst]; exact outKey_ne_dp q.1)]
            unfold stepFlatten
            rw [if_pos hdp]
            exact congrArg _ (rf_optToJson _)
          · rw [stepFlatten_of_ne (by rw [stepFlatten_fst]; exact outKey_ne_dp q.1)]
            rw [stepFlatten_of_ne hdp]
            exact congrArg _ (flatten_idem q.2)
      exact (List.map_congr_left hid).trans (List.map_id _)
termination_by D => sizeOf D
decreasing_by
  all_goals simp_wf
  · have h1 := List.sizeOf_lt_of_mem hx
    omega
  · have h1 := List.sizeOf_lt_of_mem hq
    obtain ⟨a, b⟩ := q
    simp only [Prod.mk.sizeOf_spec] at h1 ⊢
    omega

theorem uniqueKeysElems_mem {xs : List Json} (h : uniqueKeysElems xs = true) :
    ∀ x ∈ xs, uniqueKeys x = true := by
  induction xs with
  | nil => intro x hx; simp at hx
  | cons y ys ih =>
      rw [uniqueKeysElems, Bool.and_eq_true] at h
      intro x hx
      rcases List.mem_cons.1 hx with rfl | hx
      · exact h.1
      · exact ih h.2 x hx

theorem uniqueKeysFields_mem {fs : List (String × Json)} (h : uniqueKeysFields fs = true) :
    ∀ q ∈ fs, uniqueKeys q.2 = true := by
  induction fs with
  | nil => intro q hq; simp at hq
  | cons p ps ih =>
      rw [uniqueKeysFields, Bool.and_eq_true] at h
      intro q hq
      rcases List.mem_cons.1 hq with rfl | hq
      · exact h.1
      · exact ih h.2 q hq

theorem noCollisionElems_mem {xs : List Json} (h : noCollisionElems xs = true) :
    ∀ x ∈ xs, noCollision x = true := by
  induction xs with
  | nil => intro x hx; simp at hx
  | cons y ys ih =>
      rw [noCollisionElems, Bool.and_eq_true] at h
      intro x hx
      rcases List.mem_cons.1 hx with rfl | hx
      · exact h.1
      · exact ih h.2 x hx

theorem noCollisionFields_mem {fs : List (String × Json)} (h : noCollisionFields fs = true) :
    ∀ q ∈ fs, noCollision q.2 = true := by
  induction fs with
  | nil => intro q hq; simp at hq
  | cons p ps ih =>
      rw [noCollisionFields, Bool.and_eq_true] at h
      intro q hq
      rcases List.mem_cons.1 hq with rfl | hq
      · exact h.1
      · exact ih h.2 q hq

theorem transformSpecElems_of {xs : List Json}
    (h : ∀ x ∈ xs, recursively_flatten_date_parts x = transformSpec x) :
    flattenElems xs = transformSpecElems xs := by
  induction xs with
  | nil => rfl
  | cons x xs ih =>
      rw [flattenElems, transformSpecElems, h x (List.mem_cons_self ..),
        ih fun y hy => h y (List.mem_cons_of_mem _ hy)]

theorem transformSpecFields_of {fs : List (String × Json)}
    (h : ∀ q ∈ fs, recursively_flatten_date_parts q.2 = transformSpec q.2) :
    fs.map stepFlatten = transformSpecFields fs := by
  induction fs with
  | nil => rfl
  | cons p ps ih =>
      obtain ⟨k, v⟩ := p
      rw [List.map_cons, transformSpecFields,
        ih fun q hq => h q (List.mem_cons_of_mem _ hq)]
      by_cases hk : k = "date-parts"
      · simp [stepFlatten, hk]
      · simp [stepFlatten, hk]
        exact h (k, v) (List.mem_cons_self ..)

/-- Where no mapping holds both a `date-parts` and a `date` key (and keys are
unique, as decoded dicts guarantee), the dict-assignment loop of the code
coincides with the spec's plain in-place replacement. -/
theorem flatten_eq_spec : ∀ (D : Json), uniqueKeys D = true → noCollision D = true →
    recursively_flatten_date_parts D = transformSpec D
  | .null, _, _ => rfl
  | .bool _, _, _ => rfl
  | .num _, _, _ => rfl
  | .str _, _, _ => rfl
  | .arr xs, h1, h2 => by
      rw [recursively_flatten_date_parts, transformSpec]
      rw [uniqueKeys] at h1
      rw [noCollision] at h2
      exact congrArg Json.arr (transformSpecElems_of fun x hx =>
        flatten_eq_spec x (uniqueKeysElems_mem h1 x hx) (noCollisionElems_mem h2 x hx))
  | .obj fields, h1, h2 => by
      rw [recursively_flatten_date_parts, transformSpec]
      rw [uniqueKeys, Bool.and_eq_true, decide_eq_true_eq] at h1
      rw [noCollision, Bool.and_eq_true, Bool.not_eq_true', Bool.and_eq_false_iff] at h2
      have hnc : ¬ ("date-parts" ∈ fields.map Prod.fst ∧ "date" ∈ fields.map Prod.fst) := by
        rintro ⟨ha, hb⟩
        rcases h2.1 with h | h
        · rw [List.contains, Bool.eq_false_iff] at h
          exact h (List.elem_iff.2 ha)
        · rw [List.contains, Bool.eq_false_iff] at h
          exact h (List.elem_iff.2 hb)
      have houtnd : (fields.map fun p => outKey p.1).Nodup := by
        have : (fields.map fun p => outKey p.1) = (fields.map Prod.fst).map outKey := by
          rw [List.map_map]
          rfl
        rw [this]
        exact outKeys_nodup h1.1 hnc
      rw [flattenFields_eq_append fields [] houtnd (by simp), List.nil_append]
      exact congrArg Json.obj (transformSpecFields_of fun q hq =>
        flatten_eq_spec q.2 (uniqueKeysFields_mem h1.2 q hq) (noCollisionFields_mem h2.2 q hq))
termination_by D => sizeOf D
decreasing_by
  all_goals simp_wf
  · have hlt := List.sizeOf_lt_of_mem hx
    omega
  · have hlt := List.sizeOf_lt_of_mem hq
    obtain ⟨a, b⟩ := q
    simp only [Prod.mk.sizeOf_spec] at hlt ⊢
    omega

/-- Value stored under key `k` in an association-list mapping (first
occurrence, as CPython dict lookup — keys are unique in dicts). -/
def lookupKey (k : String) (fields : List (String × Json)) : Option Json :=
  (fields.find? fun p => p.1 == k).map Prod.snd

/-- A source field that the `new_obj` loop writes to the output key `date`:
either a `date-parts` field (converted) or a literal `date` field. -/
def relevantB (p : String × Json) : Bool := p.1 == "date-parts" || p.1 == "date"

/-- The last field of a mapping whose output key is `date` — the one whose
value survives the dict assignments of the `new_obj` loop. -/
def lastRelevant : List (String × Json) → Option (String × Json)
  | [] => none
  | q :: rest => match lastRelevant rest with
      | some r => some r
      | none => if relevantB q then some q else none

/-- The value the `new_obj` loop writes for a field whose output key is
`date`. -/
def outVal (q : String × Json) : Json :=
  if q.1 = "date-parts" then optToJson (date_parts_to_date q.2)
  else recursively_flatten_date_parts q.2

theorem find?_map_replace_self (k : String) (v : Json) (l : List (String × Json)) :
    List.find? (fun p => p.1 == k) (l.map fun p => if p.1 = k then (k, v) else p)
      = if l.any (fun p => p.1 == k) then some (k, v) else none := by
  induction l with
  | nil => simp
  | cons p ps ih =>
      simp only [List.map_cons, List.any_cons, List.find?]
      by_cases hp : p.1 = k
      · simp [hp, -List.find?_map]
      · have hb : (p.1 == k) = false := by simp [hp]
        simp only [if_neg hp, hb, Bool.false_or]
        simp [ih, -List.find?_map]

theorem find?_map_replace_other {k' k : String} (hne : k' ≠ k) {v : Json}
    {l : List (String × Json)} :
    List.find? (fun p => p.1 == k') (l.map fun p => if p.1 = k then (k, v) else p)
      = List.find? (fun p => p.1 == k') l := by
  induction l with
  | nil => rfl
  | cons p ps ih =>
      simp only [List.map_cons, List.find?]
      by_cases hp : p.1 = k
      · have h2 : (k == k') = false := by simp [Ne.symm hne]
        simp [hp, h2, ih, -List.find?_map]
      · by_cases hp' : p.1 = k'
        · have hb' : (p.1 == k') = true := by simp [hp']
          simp [hp, hp', hb', hne, -List.find?_map]
        · simp [hp, hp', ih, -List.find?_map]

theorem lookupKey_dictInsert_self (k : String) (v : Json) (l : List (String × Json)) :
    lookupKey k (dictInsert k v l) = some v := by
  unfold dictInsert lookupKey
  split
  · rename_i hany
    rw [find?_map_replace_self, if_pos hany]
    rfl
  · rename_i hany
    rw [List.find?_append, List.find?_eq_none.2 fun x hx hpx =>
      hany (List.any_eq_true.2 ⟨x, hx, hpx⟩)]
    simp

theorem lookupKey_dictInsert_other {k' k : String} (hne : k' ≠ k) {v : Json}
    {l : List (String × Json)} :
    lookupKey k' (dictInsert k v l) = lookupKey k' l := by
  unfold dictInsert lookupKey
  split
  · rw [find?_map_replace_other hne]
  · rw [List.find?_append]
    have hsingle : List.find? (fun p => p.1 == k') [(k, v)] = none := by
      simp [Ne.symm hne]
    rw [hsingle]
    cases List.find? (fun p => p.1 == k') l <;> rfl

/-- What the `new_obj` loop stores under the output key `date`: the
processed value of the last source field whose output key is `date`
(either a converted `date-parts` or a recursed literal `date`). -/
theorem lookup_flattenFields_date :
    ∀ (fields acc : List (String × Json)),
      lookupKey "date" (flattenFields fields acc)
        = match lastRelevant fields with
          | some q => some (outVal q)
          | none => lookupKey "date" acc := by
  intro fields
  induction fields with
  | nil => intro acc; rfl
  | cons hd tl ih =>
      intro acc
      obtain ⟨k, v⟩ := hd
      rw [flattenFields, lastRelevant]
      by_cases hk : k = "date-parts"
      · subst hk
        rw [if_pos rfl, ih]
        cases hlr : lastRelevant tl with
        | some r => simp [hlr]
        | none => simp [hlr, relevantB, lookupKey_dictInsert_self, outVal]
      · rw [if_neg hk]
        by_cases hk' : k = "date"
        · subst hk'
          rw [ih]
          cases hlr : lastRelevant tl with
          | some r => simp [hlr]
          | none => simp [hlr, relevantB, lookupKey_dictInsert_self, outVal, hk]
        · rw [ih]
          cases hlr : lastRelevant tl with
          | some r => simp [hlr]
          | none =>
              have hrel : relevantB (k, v) = false := by simp [relevantB, hk, hk']
              rw [lookupKey_dictInsert_other (Ne.symm hk')]
              simp [hlr, hrel]

theorem mem_keys_of_lookupKey {k : String} {fs : List (String × Json)} {j : Json}
    (h : lookupKey k fs = some j) : k ∈ fs.map Prod.fst := by
  unfold lookupKey at h
  cases hf : fs.find? fun p => p.1 == k with
  | none => rw [hf] at h; simp at h
  | some p =>
      have hp := List.find?_some hf
      have hmem := List.mem_of_find?_eq_some hf
      exact (beq_iff_eq.1 hp) ▸ List.mem_map.2 ⟨p, hmem, rfl⟩

/-! ## File Processor (`process_single_file`) -/

/-- One raw line of a `.jsonl.gz` input file as `process_single_file`
observes it: blank after `strip()`, malformed JSON (`json.loads` raises
`JSONDecodeError`), or a line that decodes to the document `j`. -/
inductive LineContent where
  | blank
  | malformed
  | doc (j : Json)

/-- The local counters of `process_single_file` plus the stream of documents
written to the output file (one JSON line each). -/
structure FileStats where
  lines_processed : Nat
  lines_failed_json : Nat
  lines_written : Nat
  output : List Json
deriving Repr

def initStats : FileStats := ⟨0, 0, 0, []⟩

/-- Body of the `for line in infile` loop: every line bumps the processed
counter; a blank line is skipped; a malformed line bumps the failed-JSON
counter and continues; otherwise the decoded document is transformed by
`transformE`.  If the transform raises (an `OverflowError` escaping the
date conversion), the loop's own `except Exception` catches it and moves
to the next line, so the line is processed but nothing is written and no
counter beyond `lines_processed` moves.  If the transform returns, the
result is written iff it `is not None` (only an input JSON `null`
transforms to `None`). -/
def stepLine (st : FileStats) (l : LineContent) : FileStats :=
  match l with
  | .blank => { st with lines_processed := st.lines_processed + 1 }
  | .malformed => { st with lines_processed := st.lines_processed + 1,
                            lines_failed_json := st.lines_failed_json + 1 }
  | .doc j =>
      match transformE j with
      | .error _ => { st with lines_processed := st.lines_processed + 1 }
      | .ok .null => { st with lines_processed := st.lines_processed + 1 }
      | .ok t => { st with lines_processed := st.lines_processed + 1,
                           lines_written := st.lines_written + 1,
                           output := st.output ++ [t] }

/-- `process_single_file` from `scripts/crossref_cleanup.py`.  The input is
`none` when the streams cannot be opened or read at all (the outer
`except` returns `False`); otherwise the whole line loop runs — per-line
faults are caught inside the loop and never escape the file boundary. -/
def process_single_file (content : Option (List LineContent)) : Bool × FileStats :=
  match content with
  | none => (false, initStats)
  | some lines => (true, lines.foldl stepLine initStats)

def isBlankLine : LineContent → Bool
  | .blank => true
  | _ => false

def isMalformedLine : LineContent → Bool
  | .malformed => true
  | _ => false

def isNullDocLine : LineContent → Bool
  | .doc j => j.isNull
  | _ => false

/-- A line whose document makes the transform raise (uncaught
`OverflowError` from the date conversion); the per-line `except Exception`
swallows it and the line is skipped without being written. -/
def isRaisingLine : LineContent → Bool
  | .doc j => match transformE j with
      | .error _ => true
      | .ok _ => false
  | _ => false

/-- A line that produces one output line: a document whose transform
returns a value that is not `None`. -/
def isWrittenLine : LineContent → Bool
  | .doc j => match transformE j with
      | .ok t => !t.isNull
      | .error _ => false
  | _ => false

theorem rf_eq_null_iff (j : Json) :
    recursively_flatten_date_parts j = Json.null ↔ j = Json.null := by
  cases j <;> simp [recursively_flatten_date_parts]

theorem foldl_stepLine_counts (lines : List LineContent) :
    ∀ st : FileStats,
      (lines.foldl stepLine st).lines_processed = st.lines_processed + lines.length ∧
      (lines.foldl stepLine st).lines_failed_json
        = st.lines_failed_json + lines.countP isMalformedLine ∧
      (lines.foldl stepLine st).lines_written
        = st.lines_written + lines.countP isWrittenLine := by
  induction lines with
  | nil => intro st; simp
  | cons l ls ih =>
      intro st
      rw [List.foldl_cons]
      obtain ⟨ih1, ih2, ih3⟩ := ih (stepLine st l)
      refine ⟨?_, ?_, ?_⟩
      · rw [ih1]
        cases l with
        | blank => simp [stepLine]; omega
        | malformed => simp [stepLine]; omega
        | doc j =>
            cases hrf : transformE j with
            | error e => simp [stepLine, hrf, List.length_cons]; omega
            | ok t => cases t <;> simp [stepLine, hrf, List.length_cons] <;> omega
      · rw [ih2, List.countP_cons]
        cases l with
        | blank => simp [stepLine, isMalformedLine]
        | malformed => simp [stepLine, isMalformedLine]; omega
        | doc j =>
            cases hrf : transformE j with
            | error e => simp [stepLine, isMalformedLine, hrf]
            | ok t => cases t <;> simp [stepLine, isMalformedLine, hrf]
      · rw [ih3, List.countP_cons]
        cases l with
        | blank => simp [stepLine, isWrittenLine]
        | malformed => simp [stepLine, isWrittenLine]
        | doc j =>
            cases hrf : transformE j with
            | error e => simp [stepLine, isWrittenLine, hrf]
            | ok t =>
                cases t <;> simp [stepLine, isWrittenLine, hrf, Json.isNull] <;> omega

theorem lineContent_partition (lines : List LineContent) :
    lines.countP isBlankLine + lines.countP isMalformedLine
      + lines.countP isNullDocLine + lines.countP isRaisingLine
      + lines.countP isWrittenLine = lines.length := by
  induction lines with
  | nil => simp
  | cons l ls ih =>
      simp only [List.countP_cons, List.length_cons]
      cases l with
      | blank =>
          simp [isBlankLine, isMalformedLine, isNullDocLine, isRaisingLine, isWrittenLine]
          omega
      | malformed =>
          simp [isBlankLine, isMalformedLine, isNullDocLine, isRaisingLine, isWrittenLine]
          omega
      | doc j =>
          cases hrf : transformE j with
          | error e =>
              have hjn : j.isNull = false := by
                cases j <;> simp [Json.isNull] <;> simp [transformE] at hrf
              simp [isBlankLine, isMalformedLine, isNullDocLine, isRaisingLine,
                    isWrittenLine, hrf, hjn]
              omega
          | ok t =>
              by_cases hj : j = Json.null
              · subst hj
                have ht : t = Json.null := by
                  have h0 : transformE Json.null = Except.ok Json.null := rfl
                  rw [h0] at hrf
                  injection hrf with h
                  exact h.symm
                subst ht
                simp [isBlankLine, isMalformedLine, isNullDocLine, isRaisingLine,
                      isWrittenLine, Json.isNull, transformE]
                omega
              · have hjn : j.isNull = false := by
                  cases j <;> simp [Json.isNull]
                  exact hj rfl
                have htn : t.isNull = false := by
                  cases t <;> simp [Json.isNull]
                  exact hj ((transformE_ok_null_iff j).1 hrf)
                simp [isBlankLine, isMalformedLine, isNullDocLine, isRaisingLine,
                      isWrittenLine, hrf, hjn, htn]
                omega

/-! ## String helpers: models of the Python string/path operations -/

/-- Python `s.endswith(pat)`. -/
def strEnds (s pat : String) : Bool := pat.data.isSuffixOf s.data

/-- Python `s.removesuffix(pat)`: drops one trailing occurrence if present. -/
def dropEnd (s pat : String) : String :=
  if strEnds s pat then String.mk (s.data.take (s.data.length - pat.data.length)) else s

/-- `os.path.basename`: everything after the last `/`. -/
def basenameStr (s : String) : String :=
  String.mk ((s.data.reverse.takeWhile fun c => c ≠ '/').reverse)

/-- The server-side name filter of `list_blobs(prefix=...)`: blob names
starting with the given string. -/
def strStarts (s pat : String) : Bool := pat.data.isPrefixOf s.data

/-! ## Batch Load Scheduler (`scripts/loadtobq.py`) and Retry Driver
(`scripts/loadtobq_retry.py`) -/

def MAX_TOTAL_LOAD_JOBS : Nat := 1500

def TABLE_UPDATE_LIMIT_PER_10S : ℚ := 100

def FILES_PER_BATCH : Nat := 50

def BUCKET_NAME : String := "crossref"

/-- `DELAY_BETWEEN_BATCHES = max((MAX_WORKERS / TABLE_UPDATE_LIMIT_PER_10S) * 10, 10.0)`.
`MAX_WORKERS = os.cpu_count()` is machine-dependent, so the pool width is a
parameter; the arithmetic is modelled exactly over `ℚ`. -/
def DELAY_BETWEEN_BATCHES (max_workers : ℚ) : ℚ :=
  max ((max_workers / TABLE_UPDATE_LIMIT_PER_10S) * 10) 10

/-- The `(gcs_uris, success-flag, error-text)` triple a load worker returns. -/
structure LoadOutcome where
  uris : List String
  success : Bool
  error : Option String
deriving Repr, DecidableEq

/-- `upload_batch_to_bq` (identical in both load scripts).  `jobResult` is
the outcome of `client.load_table_from_uri(...)` plus `load_job.result()`:
`.ok` if the job reaches terminal success, `.error e` if submission or wait
raises (any exception is caught by the worker's `except`).  The second
component is the time slept before returning: the success path sleeps
`DELAY_BETWEEN_BATCHES`, the exception path returns at once. -/
def upload_batch_to_bq (max_workers : ℚ) (jobResult : Except String Unit)
    (gcs_uris : List String) : LoadOutcome × ℚ :=
  match jobResult with
  | .ok _ => (⟨gcs_uris, true, none⟩, DELAY_BETWEEN_BATCHES max_workers)
  | .error e => (⟨gcs_uris, false, some e⟩, 0)

def isOkResult : Except String Unit → Bool
  | .ok _ => true
  | .error _ => false

/-- Structural engine for the slicing loop, with fuel bounding the number of
slices (the list length suffices, as every step drops at least one
element). -/
def chunkListAux (fuel : Nat) (fpb : Nat) : List α → List (List α)
  | [] => []
  | x :: rest =>
      match fuel with
      | 0 => []
      | fuel' + 1 =>
          (x :: rest).take fpb :: chunkListAux fuel' fpb ((x :: rest).drop fpb)

/-- The Python slicing loop
`[xs[i:i + fpb] for i in range(0, total, fpb)]` for a positive step `fpb`
(`range` raises `ValueError` for step 0 — handled by the caller model). -/
def chunkList (fpb : Nat) (xs : List α) : List (List α) :=
  if fpb = 0 then [] else chunkListAux xs.length fpb xs

theorem chunkListAux_congr {α : Type} (fpb : Nat) (hf : fpb ≠ 0) :
    ∀ (f1 : Nat) (ys : List α) (f2 : Nat), ys.length ≤ f1 → ys.length ≤ f2 →
      chunkListAux f1 fpb ys = chunkListAux f2 fpb ys := by
  intro f1
  induction f1 with
  | zero =>
      intro ys f2 h1 _
      have hnil : ys = [] := List.length_eq_zero.1 (by omega)
      subst hnil
      cases f2 <;> rfl
  | succ a ih =>
      intro ys f2 h1 h2
      cases ys with
      | nil => cases f2 <;> rfl
      | cons x rest =>
          cases f2 with
          | zero => simp at h2
          | succ b =>
              rw [chunkListAux, chunkListAux]
              congr 1
              refine ih _ _ ?_ ?_
              · rw [List.length_drop, List.length_cons]
                rw [List.length_cons] at h1
                omega
              · rw [List.length_drop, List.length_cons]
                rw [List.length_cons] at h2
                omega

theorem chunkList_nil {α : Type} (fpb : Nat) : chunkList fpb ([] : List α) = [] := by
  unfold chunkList
  split <;> rfl

theorem chunkList_cons_eq {α : Type} (fpb : Nat) (hf : fpb ≠ 0) (x : α) (rest : List α) :
    chunkList fpb (x :: rest)
      = (x :: rest).take fpb :: chunkList fpb ((x :: rest).drop fpb) := by
  unfold chunkList
  rw [if_neg hf, if_neg hf]
  have h1 : chunkListAux (x :: rest).length fpb (x :: rest)
      = chunkListAux (rest.length + 1) fpb (x :: rest) := by
    rw [List.length_cons]
  rw [h1, chunkListAux]
  congr 1
  refine chunkListAux_congr fpb hf rest.length _ _ ?_ (le_refl _)
  rw [List.length_drop, List.length_cons]
  omega

/-- `ceil(total / maxJobs)` as computed by `math.ceil(total_files / 1500)`
(the float division is exact at every size this pipeline can see). -/
def ceilDivNat (a b : Nat) : Nat := (a + b - 1) / b

/-- The batch-construction step of `main()` in `scripts/loadtobq.py`:
`files_per_batch = ceil(total_files / MAX_TOTAL_LOAD_JOBS)`, then batching
by slicing with step `files_per_batch`.  When `total_files = 0` the step is
0 and `range(0, 0, 0)` raises `ValueError`, so batching fails — `none`. -/
def makeBatches (all_files : List String) : Option (List (List String)) :=
  if ceilDivNat all_files.length MAX_TOTAL_LOAD_JOBS = 0 then none
  else some (chunkList (ceilDivNat all_files.length MAX_TOTAL_LOAD_JOBS) all_files)

/-- `main()` of `scripts/loadtobq.py`: list blobs, keep `.jsonl.gz` names,
form `gs://` URIs, batch, submit every batch (each through
`upload_batch_to_bq` with its own job result), then collect the URIs of
failed batches (the `failed_uploads.txt` ledger) and the error lines (the
`error-log.log` artifact, modelled as `(uris, error-text)` pairs).
Returns `none` when the batching step raises. -/
def loadtobq_main (blobNames : List String) (max_workers : ℚ)
    (jobOk : List String → Except String Unit) :
    Option (List String × List (List String × String)) :=
  let all_files := (blobNames.filter fun b => strEnds b ".jsonl.gz").map
    fun b => "gs://" ++ BUCKET_NAME ++ "/" ++ b
  match makeBatches all_files with
  | none => none
  | some batches =>
      let results := batches.map fun batch =>
        (upload_batch_to_bq max_workers (jobOk batch) batch).1
      let failed_files := ((results.filter fun r => !r.success).map
        fun r => r.uris).flatten
      let error_messages := (results.filter fun r => !r.success).map
        fun r => (r.uris, r.error.getD "")
      some (failed_files, error_messages)

/-- `main()` of `scripts/loadtobq_retry.py`, given the lines of the prior
failure ledger: re-batch at the fixed `FILES_PER_BATCH = 50`, resubmit each
batch through the same `upload_batch_to_bq`, and emit the new failure ledger
and error artifact. -/
def loadtobq_retry_main (failed_files : List String) (max_workers : ℚ)
    (jobOk : List String → Except String Unit) :
    List String × List (List String × String) :=
  let batches := chunkList FILES_PER_BATCH failed_files
  let results := batches.map fun batch =>
    (upload_batch_to_bq max_workers (jobOk batch) batch).1
  let retry_failed := ((results.filter fun r => !r.success).map
    fun r => r.uris).flatten
  let retry_errors := (results.filter fun r => !r.success).map
    fun r => (r.uris, r.error.getD "")
  (retry_failed, retry_errors)

theorem chunkList_flatten {α : Type} (fpb : Nat) (hf : fpb ≠ 0) :
    ∀ (xs : List α), (chunkList fpb xs).flatten = xs
  | [] => by rw [chunkList_nil]; rfl
  | x :: rest => by
      rw [chunkList_cons_eq fpb hf, List.flatten_cons,
        chunkList_flatten fpb hf ((x :: rest).drop fpb)]
      exact List.take_append_drop fpb (x :: rest)
termination_by xs => xs.length
decreasing_by
  simp only [List.length_drop, List.length_cons]
  omega

theorem chunkList_mem_size {α : Type} (fpb : Nat) (hf : fpb ≠ 0) :
    ∀ (xs : List α), ∀ b ∈ chunkList fpb xs, b.length ≤ fpb ∧ b ≠ []
  | [] => by rw [chunkList_nil]; intro b hb; simp at hb
  | x :: rest => by
      rw [chunkList_cons_eq fpb hf]
      intro b hb
      rcases List.mem_cons.1 hb with rfl | hb
      · constructor
        · simp [List.length_take]
        · have : 0 < fpb := Nat.pos_of_ne_zero hf
          intro hnil
          have := congrArg List.length hnil
          simp [List.length_take, List.length_cons] at this
          omega
      · exact chunkList_mem_size fpb hf ((x :: rest).drop fpb) b hb
termination_by xs => xs.length
decreasing_by
  simp only [List.length_drop, List.length_cons]
  omega

theorem chunkList_eq_nil_iff {α : Type} (fpb : Nat) (hf : fpb ≠ 0) (xs : List α) :
    chunkList fpb xs = [] ↔ xs = [] := by
  cases xs with
  | nil => rw [chunkList_nil]; simp
  | cons x rest => rw [chunkList_cons_eq fpb hf]; simp

theorem chunkList_dropLast_size {α : Type} (fpb : Nat) (hf : fpb ≠ 0) :
    ∀ (xs : List α), ∀ b ∈ (chunkList fpb xs).dropLast, b.length = fpb
  | [] => by rw [chunkList_nil]; intro b hb; simp at hb
  | x :: rest => by
      rw [chunkList_cons_eq fpb hf]
      intro b hb
      cases hc : chunkList fpb ((x :: rest).drop fpb) with
      | nil =>
          rw [hc] at hb
          simp [List.dropLast_single] at hb
      | cons c cs =>
          rw [hc] at hb
          simp only [List.dropLast_cons₂, List.mem_cons] at hb
          rcases hb with rfl | hb
          · have hdrop : (x :: rest).drop fpb ≠ [] := by
              intro hd
              rw [hd, chunkList_nil] at hc
              exact List.noConfusion hc
            have hlen : fpb < (x :: rest).length := by
              have := List.length_pos.2 hdrop
              rw [List.length_drop] at this
              omega
            rw [List.length_take]
            rw [List.length_cons] at hlen ⊢
            omega
          · have := chunkList_dropLast_size fpb hf ((x :: rest).drop fpb) b
            rw [hc] at this
            exact this hb
termination_by xs => xs.length
decreasing_by
  simp only [List.length_drop, List.length_cons]
  omega

theorem chunkList_length {α : Type} (fpb : Nat) (hf : fpb ≠ 0) :
    ∀ (xs : List α), (chunkList fpb xs).length = (xs.length + fpb - 1) / fpb
  | [] => by
      rw [chunkList_nil]
      have h0 : (fpb - 1) / fpb = 0 := Nat.div_eq_of_lt (by omega)
      simp [h0]
  | x :: rest => by
      rw [chunkList_cons_eq fpb hf, List.length_cons,
        chunkList_length fpb hf ((x :: rest).drop fpb)]
      rw [List.length_drop]
      have hpos : 0 < fpb := Nat.pos_of_ne_zero hf
      set n := (x :: rest).length with hn
      have hn1 : 1 ≤ n := by rw [hn]; simp
      by_cases hle : n ≤ fpb
      · have h1 : n - fpb + fpb - 1 < fpb := by omega
        rw [Nat.div_eq_of_lt h1]
        have h3 : (n + fpb - 1) / fpb = 1 := by
          have hlow : 1 ≤ (n + fpb - 1) / fpb :=
            (Nat.le_div_iff_mul_le hpos).2 (by omega)
          have hhigh : (n + fpb - 1) / fpb < 2 :=
            (Nat.div_lt_iff_lt_mul hpos).2 (by omega)
          omega
        omega
      · have h1 : n - fpb + fpb - 1 = n - 1 := by omega
        have h2 : n + fpb - 1 = (n - 1) + fpb := by omega
        rw [h1, h2, Nat.add_div_right _ hpos]
termination_by xs => xs.length
decreasing_by
  simp only [List.length_drop, List.length_cons]
  omega

/-- The job-count bound: with batch size `ceil(n / m)`, the number of
batches `ceil(n / ceil(n / m))` never exceeds `m` (for nonempty input). -/
theorem ceilDiv_batch_bound {n m : Nat} (hn : 1 ≤ n) (hm : 1 ≤ m) :
    (n + ceilDivNat n m - 1) / ceilDivNat n m ≤ m := by
  unfold ceilDivNat
  set k := (n + m - 1) / m with hk
  have hmpos : 0 < m := hm
  have hk1 : 1 ≤ k := by
    rw [hk]
    exact (Nat.le_div_iff_mul_le hmpos).2 (by omega)
  have hkm : n ≤ k * m := by
    have hlt : n + m - 1 < (k + 1) * m :=
      (Nat.div_lt_iff_lt_mul hmpos).1 (by omega)
    rw [Nat.succ_mul] at hlt
    omega
  have hexp : (m + 1) * k = k * m + k := by ring
  have hfin : (n + k - 1) / k < m + 1 :=
    (Nat.div_lt_iff_lt_mul (by omega)).2 (by rw [hexp]; omega)
  omega

/-! ## Dedup Upload Orchestrator (`scripts/crossref_cleanup.py`) -/

/-- One local source file found by `os.walk`: its directory components
relative to the source root, its bare filename (an `os.walk` entry never
contains a separator), and its readable content — `none` models a
stream-level open/read failure (e.g. a corrupt gzip member). -/
structure SourceFile where
  dirs : List String
  filename : String
  content : Option (List LineContent)

/-- `os.path.relpath(input_file_path, local_source_dir)`: the directory
components joined with the filename. -/
def relativePathOf (f : SourceFile) : String :=
  f.dirs.foldr (fun d acc => d ++ "/" ++ acc) f.filename

/-- `os.path.join(gcs_dest_folder, relative_path)` followed by
`.replace(chr(92), "/")`: inserts a separator unless one is present. -/
def joinPath (d r : String) : String :=
  if strEnds d "/" then d ++ r else d ++ "/" ++ r

/-- `folder_prefix = gcs_dest_folder + ('/' if not
gcs_dest_folder.endswith('/') else '')` from `parallel_process_and_upload`. -/
def folderPrefOf (d : String) : String :=
  if strEnds d "/" then d else d ++ "/"

/-- The object store: blob names with their uploaded document streams. -/
abbrev GCS := List (String × List Json)

def gcsNames (s : GCS) : List String := s.map Prod.fst

/-- `blob.upload_from_filename(...)`: writes (or overwrites) the blob under
the destination name. -/
def putBlob (name : String) (content : List Json) (s : GCS) : GCS :=
  if s.any (fun b => b.1 == name) then
    s.map (fun b => if b.1 = name then (name, content) else b)
  else s ++ [(name, content)]

/-- `list_processed_files_in_gcs(bucket, folder_prefix)`: iterate the blobs
whose name starts with the prefix (the server-side `list_blobs(prefix=...)`
filter), skip the folder placeholder itself and any name not ending in
`.jsonl.gz`, and collect `basename(name).removesuffix('.jsonl.gz')`. -/
def list_processed_files_in_gcs (s : GCS) (folderPref : String) : List String :=
  (s.map Prod.fst).filterMap fun nm =>
    if strStarts nm folderPref && !(nm == folderPref) && strEnds nm ".jsonl.gz" then
      some (dropEnd (basenameStr nm) ".jsonl.gz")
    else none

/-- The worker's tagged status strings. -/
inductive WStatus where
  | skipped
  | processing_failed
  | processed_empty
  | upload_failed
  | success
  | worker_error
deriving DecidableEq, Repr

/-- `filename.removesuffix('.jsonl.gz')` — the dedup base identifier. -/
def baseId (f : SourceFile) : String := dropEnd f.filename ".jsonl.gz"

/-- The destination key `gcs_path` derived by the worker. -/
def gcsPathOf (destFolder : String) (f : SourceFile) : String :=
  joinPath destFolder (relativePathOf f)

/-- `process_and_upload_worker`: returns Skipped before any processing when
the base identifier is in the pre-fetched set; else runs the File Processor
(stream failure → processing_failed); an empty processed output is removed
and reported processed_empty (the size-zero check, with size measured by
written lines); else the output is uploaded — `uploadOk` is the upload
oracle (permission/network), deciding per destination name; refusal keeps
the temp file and reports upload_failed, acceptance stores the blob and
reports success.  Every branch is total, so the `worker_error` catch-all of
the Python `except` is never produced by the model. -/
def process_and_upload_worker (destFolder : String) (uploadOk : String → Bool)
    (existing : List String) (s : GCS) (f : SourceFile) : WStatus × GCS :=
  if baseId f ∈ existing then (.skipped, s)
  else if (process_single_file f.content).1 = false then (.processing_failed, s)
  else if (process_single_file f.content).2.output.isEmpty then (.processed_empty, s)
  else if uploadOk (gcsPathOf destFolder f) then
    (.success, putBlob (gcsPathOf destFolder f) (process_single_file f.content).2.output s)
  else (.upload_failed, s)

/-- The worker's status as a pure function of the task — the store never
influences which branch is taken. -/
def workerStatus (destFolder : String) (uploadOk : String → Bool)
    (existing : List String) (f : SourceFile) : WStatus :=
  if baseId f ∈ existing then .skipped
  else if (process_single_file f.content).1 = false then .processing_failed
  else if (process_single_file f.content).2.output.isEmpty then .processed_empty
  else if uploadOk (gcsPathOf destFolder f) then .success
  else .upload_failed

/-- Whether a task would reach the upload call and be accepted — a pure
function of the task (deterministic across runs of an unchanged tree). -/
def willUpload (destFolder : String) (uploadOk : String → Bool) (f : SourceFile) : Bool :=
  (process_single_file f.content).1
    && !(process_single_file f.content).2.output.isEmpty
    && uploadOk (gcsPathOf destFolder f)

/-- The worker pool, sequentialized in task order: tasks are independent
(distinct destination names, read-only dedup set), so the fold is a faithful
serialization of the pool; it returns the statuses in order and the final
store. -/
def runTasks (destFolder : String) (uploadOk : String → Bool) (existing : List String) :
    List SourceFile → GCS → List WStatus × GCS
  | [], s => ([], s)
  | f :: fs, s =>
      let r := process_and_upload_worker destFolder uploadOk existing s f
      let rest := runTasks destFolder uploadOk existing fs r.2
      (r.1 :: rest.1, rest.2)

/-- The aggregation-loop counters of `parallel_process_and_upload` (an empty
processed result is counted as a processing failure, as in the code). -/
structure RunCounts where
  processed_count : Nat
  skipped_count : Nat
  processing_failed_count : Nat
  upload_failed_count : Nat
  worker_error_count : Nat
deriving Repr

def countOutcome (c : RunCounts) : WStatus → RunCounts
  | .success => { c with processed_count := c.processed_count + 1 }
  | .skipped => { c with skipped_count := c.skipped_count + 1 }
  | .processing_failed => { c with processing_failed_count := c.processing_failed_count + 1 }
  | .upload_failed => { c with upload_failed_count := c.upload_failed_count + 1 }
  | .processed_empty => { c with processing_failed_count := c.processing_failed_count + 1 }
  | .worker_error => { c with worker_error_count := c.worker_error_count + 1 }

structure RunResult where
  outcomes : List WStatus
  store : GCS
  successCount : Nat

/-- `parallel_process_and_upload(local_source_dir, gcs_dest_folder, bucket)`:
derive the folder prefix, fetch the dedup index once, collect every
`.jsonl.gz` file of the walk as a task, run the worker pool, aggregate the
per-status counters, and return the count of Success outcomes
(`processed_count`). -/
def parallel_process_and_upload (files : List SourceFile) (destFolder : String)
    (uploadOk : String → Bool) (s₀ : GCS) : RunResult :=
  let folderPref := folderPrefOf destFolder
  let existing := list_processed_files_in_gcs s₀ folderPref
  let tasks := files.filter fun f => strEnds f.filename ".jsonl.gz"
  let r := runTasks destFolder uploadOk existing tasks s₀
  let counts := r.1.foldl countOutcome ⟨0, 0, 0, 0, 0⟩
  { outcomes := r.1, store := r.2, successCount := counts.processed_count }

theorem strEnds_refl (s : String) : strEnds s s = true := by
  unfold strEnds
  exact List.isSuffixOf_iff_suffix.2 (List.suffix_refl _)

theorem strEnds_append_of {y p : String} (x : String) (h : strEnds y p = true) :
    strEnds (x ++ y) p = true := by
  unfold strEnds at h ⊢
  rw [String.data_append]
  exact List.isSuffixOf_iff_suffix.2
    ((List.isSuffixOf_iff_suffix.1 h).trans (List.suffix_append _ _))

theorem strEnds_trans {s t p : String} (h1 : strEnds s t = true) (h2 : strEnds t p = true) :
    strEnds s p = true := by
  unfold strEnds at h1 h2 ⊢
  exact List.isSuffixOf_iff_suffix.2
    ((List.isSuffixOf_iff_suffix.1 h2).trans (List.isSuffixOf_iff_suffix.1 h1))

theorem strEnds_length_le {s p : String} (h : strEnds s p = true) :
    p.data.length ≤ s.data.length :=
  (List.isSuffixOf_iff_suffix.1 h).length_le

theorem rel_ends_filename (f : SourceFile) :
    strEnds (relativePathOf f) f.filename = true := by
  unfold relativePathOf
  induction f.dirs with
  | nil => exact strEnds_refl _
  | cons d ds ih =>
      rw [List.foldr_cons]
      exact strEnds_append_of (d ++ "/") ih

theorem joinPath_eq (d r : String) : joinPath d r = folderPrefOf d ++ r := by
  unfold joinPath folderPrefOf
  split <;> rfl

theorem folderPref_ends_slash (d : String) : ∃ q, (folderPrefOf d).data = q ++ ['/'] := by
  unfold folderPrefOf
  split
  · rename_i h
    unfold strEnds at h
    rcases List.isSuffixOf_iff_suffix.1 h with ⟨q, hq⟩
    exact ⟨q, by rw [← hq]⟩
  · exact ⟨d.data, by rw [String.data_append]⟩

theorem strStarts_append (a b : String) : strStarts (a ++ b) a = true := by
  unfold strStarts
  rw [String.data_append]
  exact List.isPrefixOf_iff_prefix.2 (List.prefix_append _ _)

theorem append_ne_self_of_ne_empty {a r : String} (h : r.data.length ≠ 0) : a ++ r ≠ a := by
  intro he
  have hl := congrArg (fun s => s.data.length) he
  simp only [String.data_append, List.length_append] at hl
  omega

theorem takeWhile_left_of_all {α : Type} (p : α → Bool) :
    ∀ (l₁ : List α) (a : α) (l₂ : List α), (∀ x ∈ l₁, p x = true) → p a = false →
      List.takeWhile p (l₁ ++ a :: l₂) = l₁ := by
  intro l₁
  induction l₁ with
  | nil =>
      intro a l₂ _ ha
      simp [List.takeWhile_cons, ha]
  | cons x xs ih =>
      intro a l₂ hall ha
      have h1 := hall x (List.mem_cons_self ..)
      rw [List.cons_append]
      simp [List.takeWhile_cons, h1,
        ih a l₂ (fun y hy => hall y (List.mem_cons_of_mem _ hy)) ha]

theorem basenameStr_of_decomp {s : String} {q : List Char} {fn : String}
    (hdec : s.data = q ++ '/' :: fn.data) (hfn : ∀ c ∈ fn.data, c ≠ '/') :
    basenameStr s = fn := by
  unfold basenameStr
  rw [hdec]
  have hrev : (q ++ '/' :: fn.data).reverse = fn.data.reverse ++ '/' :: q.reverse := by
    rw [List.reverse_append, List.reverse_cons, List.append_assoc]
    rfl
  rw [hrev, takeWhile_left_of_all _ _ _ _
    (fun c hc => by simpa using hfn c (List.mem_reverse.1 hc)) (by simp),
    List.reverse_reverse]

theorem gcsPath_decomp (d : String) (f : SourceFile) :
    ∃ q, (gcsPathOf d f).data = q ++ '/' :: f.filename.data := by
  unfold gcsPathOf
  rw [joinPath_eq]
  unfold relativePathOf
  obtain ⟨q₀, hq₀⟩ := folderPref_ends_slash d
  suffices h : ∀ (dirs : List String) (pre : String), (∃ q₀, pre.data = q₀ ++ ['/']) →
      ∃ q, (pre ++ dirs.foldr (fun dd acc => dd ++ "/" ++ acc) f.filename).data
        = q ++ '/' :: f.filename.data by
    exact h f.dirs (folderPrefOf d) ⟨q₀, hq₀⟩
  intro dirs
  induction dirs with
  | nil =>
      rintro pre ⟨q₀, hpre⟩
      refine ⟨q₀, ?_⟩
      rw [List.foldr_nil, String.data_append, hpre, List.append_assoc]
      rfl
  | cons dd ds ih =>
      rintro pre ⟨q₀, hpre⟩
      rw [List.foldr_cons]
      have hassoc : pre ++ (dd ++ "/" ++ ds.foldr (fun dd acc => dd ++ "/" ++ acc) f.filename)
          = (pre ++ dd ++ "/") ++ ds.foldr (fun dd acc => dd ++ "/" ++ acc) f.filename := by
        rw [← String.append_assoc, ← String.append_assoc]
      rw [hassoc]
      exact ih (pre ++ dd ++ "/") ⟨(pre ++ dd).data, by rw [String.data_append]⟩

theorem listing_mono {s s' : GCS} (pref : String)
    (h : ∀ a ∈ gcsNames s, a ∈ gcsNames s') :
    ∀ b ∈ list_processed_files_in_gcs s pref, b ∈ list_processed_files_in_gcs s' pref := by
  intro b hb
  unfold list_processed_files_in_gcs at hb ⊢
  unfold gcsNames at h
  rcases List.mem_filterMap.1 hb with ⟨nm, hnm, heq⟩
  exact List.mem_filterMap.2 ⟨nm, h nm hnm, heq⟩

theorem mem_gcsNames_putBlob {a : String} (name : String) (content : List Json) (s : GCS)
    (h : a ∈ gcsNames s) : a ∈ gcsNames (putBlob name content s) := by
  unfold gcsNames at h
  unfold putBlob gcsNames
  split
  · rcases List.mem_map.1 h with ⟨b, hb, rfl⟩
    refine List.mem_map.2 ⟨_, List.mem_map.2 ⟨b, hb, rfl⟩, ?_⟩
    by_cases hbn : b.1 = name <;> simp [hbn]
  · rcases List.mem_map.1 h with ⟨b, hb, he⟩
    exact List.mem_map.2 ⟨b, List.mem_append_left _ hb, he⟩

theorem self_mem_gcsNames_putBlob (name : String) (content : List Json) (s : GCS) :
    name ∈ gcsNames (putBlob name content s) := by
  unfold putBlob gcsNames
  split
  · rename_i hany
    rcases List.any_eq_true.1 hany with ⟨b, hb, hbn⟩
    have hbn' : b.1 = name := by simpa using hbn
    exact List.mem_map.2 ⟨(name, content), List.mem_map.2 ⟨b, hb, by simp [hbn']⟩, rfl⟩
  · exact List.mem_map.2 ⟨(name, content), List.mem_append_right _ (by simp), rfl⟩

theorem worker_fst (d : String) (u : String → Bool) (e : List String) (s : GCS)
    (f : SourceFile) :
    (process_and_upload_worker d u e s f).1 = workerStatus d u e f := by
  unfold process_and_upload_worker workerStatus
  by_cases h1 : baseId f ∈ e
  · simp [h1]
  · by_cases h2 : (process_single_file f.content).1 = false
    · simp [h1, h2]
    · by_cases h3 : (process_single_file f.content).2.output.isEmpty
      · simp [h1, h2, h3]
      · by_cases h4 : u (gcsPathOf d f) <;> simp [h1, h2, h3, h4]

theorem worker_snd (d : String) (u : String → Bool) (e : List String) (s : GCS)
    (f : SourceFile) :
    (process_and_upload_worker d u e s f).2 =
      if ¬ baseId f ∈ e ∧ willUpload d u f = true then
        putBlob (gcsPathOf d f) (process_single_file f.content).2.output s
      else s := by
  unfold process_and_upload_worker willUpload
  by_cases h1 : baseId f ∈ e
  · simp [h1]
  · by_cases h2 : (process_single_file f.content).1 = false
    · simp [h1, h2]
    · have h2' : (process_single_file f.content).1 = true := by
        cases hb : (process_single_file f.content).1
        · exact absurd hb h2
        · rfl
      by_cases h3 : (process_single_file f.content).2.output.isEmpty
      · simp [h1, h2, h2', h3]
      · by_cases h4 : u (gcsPathOf d f) <;> simp [h1, h2, h2', h3, h4]

theorem worker_names_mono (d : String) (u : String → Bool) (e : List String) (s : GCS)
    (f : SourceFile) {a : String} (h : a ∈ gcsNames s) :
    a ∈ gcsNames (process_and_upload_worker d u e s f).2 := by
  rw [worker_snd]
  split
  · exact mem_gcsNames_putBlob _ _ _ h
  · exact h

theorem runTasks_fst (d : String) (u : String → Bool) (e : List String) :
    ∀ (fs : List SourceFile) (s : GCS),
      (runTasks d u e fs s).1 = fs.map (workerStatus d u e)
  | [], _ => rfl
  | f :: fs, s => by
      rw [runTasks, List.map_cons]
      rw [runTasks_fst d u e fs]
      rw [worker_fst]

theorem runTasks_names_mono (d : String) (u : String → Bool) (e : List String) :
    ∀ (fs : List SourceFile) (s : GCS) {a : String}, a ∈ gcsNames s →
      a ∈ gcsNames (runTasks d u e fs s).2
  | [], _, _, h => h
  | f :: fs, s, a, h => by
      rw [runTasks]
      exact runTasks_names_mono d u e fs _ (worker_names_mono d u e s f h)

theorem runTasks_uploaded_mem (d : String) (u : String → Bool) (e : List String) :
    ∀ (fs : List SourceFile) (s : GCS) {f : SourceFile}, f ∈ fs →
      ¬ baseId f ∈ e → willUpload d u f = true →
      gcsPathOf d f ∈ gcsNames (runTasks d u e fs s).2
  | [], _, _, hmem, _, _ => absurd hmem (List.not_mem_nil _)
  | g :: fs, s, f, hmem, h1, h2 => by
      rw [runTasks]
      rcases List.mem_cons.1 hmem with rfl | hmem
      · refine runTasks_names_mono d u e fs _ ?_
        rw [worker_snd, if_pos ⟨h1, h2⟩]
        exact self_mem_gcsNames_putBlob _ _ _
      · exact runTasks_uploaded_mem d u e fs _ hmem h1 h2

/-- A blob uploaded by a worker passes every filter of
`list_processed_files_in_gcs` and contributes exactly the file's base
identifier to the dedup index. -/
theorem uploaded_base_mem_listing {d : String} {f : SourceFile} {s : GCS}
    (hf : strEnds f.filename ".jsonl.gz" = true)
    (hfn : ∀ c ∈ f.filename.data, c ≠ '/')
    (hmem : gcsPathOf d f ∈ gcsNames s) :
    baseId f ∈ list_processed_files_in_gcs s (folderPrefOf d) := by
  unfold list_processed_files_in_gcs
  unfold gcsNames at hmem
  refine List.mem_filterMap.2 ⟨gcsPathOf d f, hmem, ?_⟩
  have hjoin : gcsPathOf d f = folderPrefOf d ++ relativePathOf f := by
    unfold gcsPathOf
    rw [joinPath_eq]
  have hrel_ends : strEnds (relativePathOf f) ".jsonl.gz" = true :=
    strEnds_trans (rel_ends_filename f) hf
  have hstarts : strStarts (gcsPathOf d f) (folderPrefOf d) = true := by
    rw [hjoin]
    exact strStarts_append _ _
  have hne : (gcsPathOf d f == folderPrefOf d) = false := by
    rw [hjoin]
    have hlen := strEnds_length_le hrel_ends
    have h9 : (".jsonl.gz" : String).data.length = 9 := by decide
    refine beq_eq_false_iff_ne.2 (append_ne_self_of_ne_empty ?_)
    omega
  have hends : strEnds (gcsPathOf d f) ".jsonl.gz" = true := by
    rw [hjoin]
    exact strEnds_append_of _ hrel_ends
  rw [if_pos (by rw [hstarts, hends, hne]; rfl)]
  obtain ⟨q, hq⟩ := gcsPath_decomp d f
  rw [basenameStr_of_decomp hq hfn]
  rfl

/-- A worker can report Success only on a task that is not in the dedup
index and whose upload decision is positive. -/
theorem workerStatus_eq_success {d : String} {u : String → Bool} {e : List String}
    {f : SourceFile} (h : workerStatus d u e f = WStatus.success) :
    ¬ baseId f ∈ e ∧ willUpload d u f = true := by
  unfold workerStatus at h
  unfold willUpload
  by_cases h1 : baseId f ∈ e
  · simp [h1] at h
  · by_cases h2 : (process_single_file f.content).1 = false
    · simp [h1, h2] at h
    · have h2' : (process_single_file f.content).1 = true := by
        cases hb : (process_single_file f.content).1
        · exact absurd hb h2
        · rfl
      by_cases h3 : (process_single_file f.content).2.output.isEmpty
      · simp [h1, h2, h3] at h
      · by_cases h4 : u (gcsPathOf d f)
        · exact ⟨h1, by simp [h2', h3, h4]⟩
        · simp [h1, h2, h3, h4] at h

/-- If no task of the list would mutate the store, the whole pool leaves the
store untouched. -/
theorem runTasks_store_fixed (d : String) (u : String → Bool) (e : List String) :
    ∀ (fs : List SourceFile) (s : GCS),
      (∀ f ∈ fs, ¬ (¬ baseId f ∈ e ∧ willUpload d u f = true)) →
      (runTasks d u e fs s).2 = s
  | [], _, _ => rfl
  | f :: fs, s, h => by
      rw [runTasks]
      have hw : (process_and_upload_worker d u e s f).2 = s := by
        rw [worker_snd, if_neg (h f (List.mem_cons_self ..))]
      rw [hw]
      exact runTasks_store_fixed d u e fs s fun g hg => h g (List.mem_cons_of_mem _ hg)

/-- The aggregation loop returns one success per Success outcome. -/
theorem foldl_countOutcome_processed (outs : List WStatus) :
    ∀ c : RunCounts, (outs.foldl countOutcome c).processed_count
      = c.processed_count + (outs.filter fun st => st = WStatus.success).length := by
  induction outs with
  | nil => intro c; simp
  | cons st sts ih =>
      intro c
      rw [List.foldl_cons, ih]
      cases st <;> (simp [countOutcome, List.filter_cons]; try omega)

theorem zip_map_self {α β : Type} (g : α → β) (l : List α) :
    ∀ p ∈ l.zip (l.map g), p.2 = g p.1 := by
  induction l with
  | nil => intro p hp; simp at hp
  | cons x xs ih =>
      intro p hp
      rw [List.map_cons, List.zip_cons_cons] at hp
      rcases List.mem_cons.1 hp with rfl | hp
      · rfl
      · exact ih p hp

/-- Any task of an unchanged tree that would upload has its base identifier
in the dedup index listed after the first run: either it was in the index
already, or the first run uploaded it. -/
theorem first_run_covers (files : List SourceFile) (d : String) (u : String → Bool)
    (s₀ : GCS) (hfn : ∀ f ∈ files, ∀ c ∈ f.filename.data, c ≠ '/') :
    ∀ f ∈ files.filter (fun g => strEnds g.filename ".jsonl.gz"),
      willUpload d u f = true →
      baseId f ∈ list_processed_files_in_gcs
        (parallel_process_and_upload files d u s₀).store (folderPrefOf d) := by
  intro f hf hw
  have hr1 : (parallel_process_and_upload files d u s₀).store
      = (runTasks d u (list_processed_files_in_gcs s₀ (folderPrefOf d))
          (files.filter fun g => strEnds g.filename ".jsonl.gz") s₀).2 := rfl
  rw [hr1]
  by_cases hmem : baseId f ∈ list_processed_files_in_gcs s₀ (folderPrefOf d)
  · exact listing_mono _
      (fun a ha => runTasks_names_mono d u _ _ s₀ ha) (baseId f) hmem
  · have hpath : gcsPathOf d f ∈ gcsNames
        (runTasks d u (list_processed_files_in_gcs s₀ (folderPrefOf d))
          (files.filter fun g => strEnds g.filename ".jsonl.gz") s₀).2 :=
      runTasks_uploaded_mem d u _ _ s₀ hf hmem hw
    exact uploaded_base_mem_listing (List.mem_filter.1 hf).2
      (hfn f (List.mem_filter.1 hf).1) hpath

/-! ## Claim theorems -/

/-- C3 (counterexample): a date-parts value whose year is `2^31` makes
`datetime.date` raise an `OverflowError` — outside the C-int range — which
neither `except ValueError` nor `except (ValueError, TypeError,
IndexError)` catches, so the conversion raises instead of returning the
absence marker. -/
theorem c3_counterexample :
    date_parts_to_dateE (Json.arr [Json.arr [Json.num 2147483648]])
      = Except.error () := rfl

/-- C3 (amended): the date-parts conversion maps `[[2024,3,15]]` to
`"2024-03-15"`, `[[2024]]` to `"2024-01-01"` (missing month/day default to
1), `[[2024,13,1]]` to `"2024-12-01"` (month clamped to 12), and
`[[2024,2,30]]` to the absence marker because `datetime.date` construction
fails with `ValueError`.  The in-range exception paths
(`ValueError`/`TypeError` from `int`, `ValueError` from `date`) are caught
and mapped to the absence marker; the conversion raises — an
`OverflowError` uncaught by either handler — exactly when a component
reaching `datetime.date` lies outside the C-int range
`[-2^31, 2^31 - 1]`. -/
theorem c3_date_parts_examples :
    date_parts_to_dateE (.arr [.arr [.num 2024, .num 3, .num 15]])
      = Except.ok (some "2024-03-15") ∧
    date_parts_to_dateE (.arr [.arr [.num 2024]]) = Except.ok (some "2024-01-01") ∧
    date_parts_to_dateE (.arr [.arr [.num 2024, .num 13, .num 1]])
      = Except.ok (some "2024-12-01") ∧
    date_parts_to_dateE (.arr [.arr [.num 2024, .num 2, .num 30]]) = Except.ok none ∧
    ∀ v : Json, date_parts_to_dateE v = Except.error () ↔
      ∃ y m d, ymdOf v = Except.ok (some (y, m, d)) ∧
        (y < C_INT_MIN ∨ C_INT_MAX < y ∨ m < C_INT_MIN ∨ C_INT_MAX < m
          ∨ d < C_INT_MIN ∨ C_INT_MAX < d) :=
  ⟨rfl, rfl, rfl, rfl, dpdE_error_iff⟩

/-- C2 (counterexample): on a mapping holding both a `date` and a
`date-parts` key, the transform does not merely replace `date-parts` — the
two writes collide on the output key `date`, so the result differs from the
spec's "structurally identical except the replacement" output
(`transformSpec`, the claim's description of the output). -/
theorem c2_counterexample :
    recursively_flatten_date_parts (Json.obj [("date", Json.str "keep"),
        ("date-parts", Json.arr [Json.arr [Json.num 2020, Json.num 1, Json.num 1]])])
      ≠ transformSpec (Json.obj [("date", Json.str "keep"),
        ("date-parts", Json.arr [Json.arr [Json.num 2020, Json.num 1, Json.num 1]])]) := by
  intro h
  have h1 : recursively_flatten_date_parts (Json.obj [("date", Json.str "keep"),
      ("date-parts", Json.arr [Json.arr [Json.num 2020, Json.num 1, Json.num 1]])])
      = Json.obj [("date", Json.str "2020-01-01")] := rfl
  have h2 : transformSpec (Json.obj [("date", Json.str "keep"),
      ("date-parts", Json.arr [Json.arr [Json.num 2020, Json.num 1, Json.num 1]])])
      = Json.obj [("date", Json.str "keep"), ("date", Json.str "2020-01-01")] := rfl
  rw [h1, h2] at h
  simp at h

/-- C2 (amended): for every decoded JSON value `D` (decoded mappings have
unique keys) in which no mapping contains both a `date-parts` and a `date`
key, and in which no `date-parts` value reaches `datetime.date` with a
component outside the C-int range (otherwise an uncaught `OverflowError`
escapes, see `c3_counterexample`), the transform terminates without
raising and returns a value structurally identical to `D` except that
every `date-parts` key is replaced in place by a `date` key holding the
converted date or the absence marker, and changes no other key, element,
or scalar (`transformSpec` is exactly that description). -/
theorem c2_transform_structure (D : Json) (hu : uniqueKeys D = true)
    (hc : noCollision D = true) (ho : noOverflow D = true) :
    transformE D = Except.ok (transformSpec D) := by
  rw [transformE_eq_total D ho, flatten_eq_spec D hu hc]

theorem c2_transform_structure_witness :
    uniqueKeys (Json.obj [("title", Json.str "t"), ("issued",
      Json.obj [("date-parts", Json.arr [Json.arr [Json.num 2024, Json.num 3, Json.num 15]])]),
      ("refs", Json.arr [Json.obj [("date-parts", Json.arr [Json.arr [Json.num 1999]])]])]) = true ∧
    noCollision (Json.obj [("title", Json.str "t"), ("issued",
      Json.obj [("date-parts", Json.arr [Json.arr [Json.num 2024, Json.num 3, Json.num 15]])]),
      ("refs", Json.arr [Json.obj [("date-parts", Json.arr [Json.arr [Json.num 1999]])]])]) = true ∧
    noOverflow (Json.obj [("title", Json.str "t"), ("issued",
      Json.obj [("date-parts", Json.arr [Json.arr [Json.num 2024, Json.num 3, Json.num 15]])]),
      ("refs", Json.arr [Json.obj [("date-parts", Json.arr [Json.arr [Json.num 1999]])]])]) = true ∧
    transformE (Json.obj [("title", Json.str "t"), ("issued",
      Json.obj [("date-parts", Json.arr [Json.arr [Json.num 2024, Json.num 3, Json.num 15]])]),
      ("refs", Json.arr [Json.obj [("date-parts", Json.arr [Json.arr [Json.num 1999]])]])])
      = Except.ok (transformSpec (Json.obj [("title", Json.str "t"), ("issued",
      Json.obj [("date-parts", Json.arr [Json.arr [Json.num 2024, Json.num 3, Json.num 15]])]),
      ("refs", Json.arr [Json.obj [("date-parts", Json.arr [Json.arr [Json.num 1999]])]])])) :=
  ⟨by decide, by decide, by decide,
    c2_transform_structure _ (by decide) (by decide) (by decide)⟩

/-- C8: `transform (transform D)` is structurally identical to
`transform D` whenever the first pass leaves no date-part substructure
(a condition the first pass in fact always establishes). -/
theorem c8_transform_idempotent (D : Json)
    (_h : noDatePartsKey (recursively_flatten_date_parts D) = true) :
    recursively_flatten_date_parts (recursively_flatten_date_parts D)
      = recursively_flatten_date_parts D :=
  flatten_idem D

theorem c8_transform_idempotent_witness :
    noDatePartsKey (recursively_flatten_date_parts (Json.obj [("issued",
      Json.obj [("date-parts", Json.arr [Json.arr [Json.num 2024]])])])) = true ∧
    recursively_flatten_date_parts (recursively_flatten_date_parts (Json.obj [("issued",
      Json.obj [("date-parts", Json.arr [Json.arr [Json.num 2024]])])]))
      = recursively_flatten_date_parts (Json.obj [("issued",
      Json.obj [("date-parts", Json.arr [Json.arr [Json.num 2024]])])]) :=
  ⟨by decide, c8_transform_idempotent _ (by decide)⟩

/-- C10 (counterexample): in a mapping holding both a pre-existing `date`
key and a `date-parts` key whose year is `2^31`, the transform does not
produce a mapping with a single `date` key — the date conversion raises an
uncaught `OverflowError` instead. -/
theorem c10_counterexample :
    transformE (Json.obj [("date", Json.str "x"),
        ("date-parts", Json.arr [Json.arr [Json.num 2147483648]])])
      = Except.error () := rfl

/-- C10 (amended): in a mapping holding both a `date-parts` key and a
pre-existing `date` key, provided no date conversion overflows (otherwise
the transform raises, see `c10_counterexample`), the transform returns and
the output holds a single `date` key whose value comes from whichever of
the two source fields occurs later in iteration order (`lastRelevant`):
the converted date-parts value if `date-parts` is later, the transformed
pre-existing value if `date` is later. -/
theorem c10_date_collision (fields : List (String × Json))
    (hdp : "date-parts" ∈ fields.map Prod.fst) (_hd : "date" ∈ fields.map Prod.fst)
    (ho : noOverflow (Json.obj fields) = true) :
    ∃ out, transformE (Json.obj fields) = Except.ok (Json.obj out) ∧
      (out.map Prod.fst).count "date" = 1 ∧
      ∃ q, lastRelevant fields = some q ∧ lookupKey "date" out = some (outVal q) := by
  have htot := transformE_eq_total (Json.obj fields) ho
  refine ⟨flattenFields fields [],
    by rw [htot, recursively_flatten_date_parts], ?_⟩
  have hlast : ∃ q, lastRelevant fields = some q := by
    rcases List.mem_map.1 hdp with ⟨p, hp, hp1⟩
    have hrel : relevantB p = true := by
      unfold relevantB
      rw [hp1]
      simp
    clear _hd hdp hp1 ho htot
    induction fields with
    | nil => simp at hp
    | cons g gs ih =>
        rw [lastRelevant]
        rcases List.mem_cons.1 hp with rfl | hp
        · cases hlr : lastRelevant gs with
          | some r => exact ⟨r, rfl⟩
          | none => exact ⟨p, by rw [if_pos hrel]⟩
        · rcases ih hp with ⟨q, hq⟩
          rw [hq]
          exact ⟨q, rfl⟩
  rcases hlast with ⟨q, hq⟩
  have hlookup : lookupKey "date" (flattenFields fields []) = some (outVal q) := by
    rw [lookup_flattenFields_date fields [], hq]
  refine ⟨?_, q, hq, hlookup⟩
  have hnd : ((flattenFields fields []).map Prod.fst).Nodup :=
    flattenFields_keys_nodup fields (by simp)
  have hmem : "date" ∈ (flattenFields fields []).map Prod.fst :=
    mem_keys_of_lookupKey hlookup
  have hle := (List.nodup_iff_count_le_one.1 hnd) "date"
  have hge := List.count_pos_iff.2 hmem
  omega

theorem c10_date_collision_witness :
    ("date-parts" ∈ ([("date", Json.str "keep"), ("date-parts",
      Json.arr [Json.arr [Json.num 2020, Json.num 1, Json.num 1]])].map Prod.fst)) ∧
    ("date" ∈ ([("date", Json.str "keep"), ("date-parts",
      Json.arr [Json.arr [Json.num 2020, Json.num 1, Json.num 1]])].map Prod.fst)) ∧
    noOverflow (Json.obj [("date", Json.str "keep"), ("date-parts",
      Json.arr [Json.arr [Json.num 2020, Json.num 1, Json.num 1]])]) = true ∧
    ∃ out, transformE (Json.obj [("date", Json.str "keep"), ("date-parts",
        Json.arr [Json.arr [Json.num 2020, Json.num 1, Json.num 1]])])
        = Except.ok (Json.obj out) ∧
      (out.map Prod.fst).count "date" = 1 ∧
      ∃ q, lastRelevant [("date", Json.str "keep"), ("date-parts",
        Json.arr [Json.arr [Json.num 2020, Json.num 1, Json.num 1]])] = some q ∧
        lookupKey "date" out = some (outVal q) :=
  ⟨by decide, by decide, by decide,
    c10_date_collision _ (by decide) (by decide) (by decide)⟩

/-- C4 (counterexample): a file whose single line is blank has N = 1 total
lines and K = 0 malformed lines, yet writes 0 output lines, not N − K = 1 —
blank lines are skipped without being written or counted as failures. -/
theorem c4_counterexample :
    ((process_single_file (some [LineContent.blank])).2).lines_written
      ≠ [LineContent.blank].length
        - ((process_single_file (some [LineContent.blank])).2).lines_failed_json := by
  decide

/-- C4 (amended): over a file with N total lines of which K are malformed
JSON, B are blank, Z decode to JSON null (whose transform is `None` and is
silently not written), and R make the transform raise (an `OverflowError`
from the date conversion, swallowed by the loop's `except Exception` with
nothing written), the File Processor processes all N lines, reports K as
the failed-JSON count, and writes exactly N − K − B − Z − R output lines;
it returns false exactly on a stream-level failure (modelled by `none`
content) and true otherwise, even if every line failed to decode; per-line
faults are caught inside the loop, so nothing escapes the file boundary. -/
theorem c4_file_processor (lines : List LineContent) :
    (process_single_file (some lines)).1 = true ∧
    (process_single_file none).1 = false ∧
    ((process_single_file (some lines)).2).lines_processed = lines.length ∧
    ((process_single_file (some lines)).2).lines_failed_json
      = lines.countP isMalformedLine ∧
    ((process_single_file (some lines)).2).lines_written
      = lines.length - lines.countP isMalformedLine
        - lines.countP isBlankLine - lines.countP isNullDocLine
        - lines.countP isRaisingLine := by
  obtain ⟨h1, h2, h3⟩ := foldl_stepLine_counts lines initStats
  have hp := lineContent_partition lines
  refine ⟨rfl, rfl, ?_, ?_, ?_⟩
  · show (lines.foldl stepLine initStats).lines_processed = lines.length
    rw [h1]
    simp [initStats]
  · show (lines.foldl stepLine initStats).lines_failed_json = lines.countP isMalformedLine
    rw [h2]
    simp [initStats]
  · show (lines.foldl stepLine initStats).lines_written = _
    rw [h3]
    have h0 : initStats.lines_written = 0 := rfl
    omega

/-- C5: for a nonempty URI list the Batch Load Scheduler partitions it into
contiguous batches of size `ceil(totalFiles / maxBatches)`; every batch
except possibly the last has exactly that size, their concatenation is the
original list, and the batch count `ceil(totalFiles / batchSize)` never
exceeds `MAX_TOTAL_LOAD_JOBS = 1500`; in particular 237 files give batch
size 1 and 237 batches, and 50000 files give batch size 34 and 1471
batches. -/
theorem c5_batch_partition :
    (∀ all_files : List String, all_files ≠ [] →
      ∃ bs, makeBatches all_files = some bs ∧
        bs.flatten = all_files ∧
        (∀ b ∈ bs.dropLast, b.length = ceilDivNat all_files.length MAX_TOTAL_LOAD_JOBS) ∧
        (∀ b ∈ bs, b.length ≤ ceilDivNat all_files.length MAX_TOTAL_LOAD_JOBS) ∧
        bs.length ≤ MAX_TOTAL_LOAD_JOBS) ∧
    (∃ bs, makeBatches (List.replicate 237 "u") = some bs ∧
      ceilDivNat 237 MAX_TOTAL_LOAD_JOBS = 1 ∧ bs.length = 237) ∧
    (∃ bs, makeBatches (List.replicate 50000 "u") = some bs ∧
      ceilDivNat 50000 MAX_TOTAL_LOAD_JOBS = 34 ∧ bs.length = 1471) := by
  have hmk : ∀ (all_files : List String), all_files ≠ [] →
      ceilDivNat all_files.length MAX_TOTAL_LOAD_JOBS ≠ 0 ∧
      makeBatches all_files
        = some (chunkList (ceilDivNat all_files.length MAX_TOTAL_LOAD_JOBS) all_files) := by
    intro all_files hne
    have hlen : 1 ≤ all_files.length := List.length_pos.2 hne
    have hfpb : ceilDivNat all_files.length MAX_TOTAL_LOAD_JOBS ≠ 0 := by
      unfold ceilDivNat MAX_TOTAL_LOAD_JOBS
      have : 1 ≤ (all_files.length + 1500 - 1) / 1500 :=
        (Nat.le_div_iff_mul_le (by omega)).2 (by omega)
      omega
    exact ⟨hfpb, by unfold makeBatches; rw [if_neg hfpb]⟩
  have hrep : ∀ n : Nat, n ≠ 0 → (List.replicate n "u") ≠ ([] : List String) := by
    intro n hn h
    have hl := congrArg List.length h
    rw [List.length_replicate] at hl
    simp at hl
    exact hn hl
  refine ⟨?_, ?_, ?_⟩
  · intro all_files hne
    obtain ⟨hfpb, hsome⟩ := hmk all_files hne
    refine ⟨_, hsome, chunkList_flatten _ hfpb all_files, ?_, ?_, ?_⟩
    · exact chunkList_dropLast_size _ hfpb all_files
    · exact fun b hb => (chunkList_mem_size _ hfpb all_files b hb).1
    · rw [chunkList_length _ hfpb]
      exact ceilDiv_batch_bound (List.length_pos.2 hne) (by unfold MAX_TOTAL_LOAD_JOBS; omega)
  · obtain ⟨hfpb, hsome⟩ := hmk (List.replicate 237 "u") (hrep 237 (by decide))
    have hv : ceilDivNat (List.replicate 237 "u").length MAX_TOTAL_LOAD_JOBS = 1 := by
      rw [List.length_replicate]
      decide
    refine ⟨_, hsome, by decide, ?_⟩
    rw [chunkList_length _ hfpb, hv, List.length_replicate]
  · obtain ⟨hfpb, hsome⟩ := hmk (List.replicate 50000 "u") (hrep 50000 (by decide))
    have hv : ceilDivNat (List.replicate 50000 "u").length MAX_TOTAL_LOAD_JOBS = 34 := by
      rw [List.length_replicate]
      decide
    refine ⟨_, hsome, by decide, ?_⟩
    rw [chunkList_length _ hfpb, hv, List.length_replicate]

/-- C9: the Batch Load Scheduler fails (the slicing step
`range(0, 0, 0)` raises `ValueError` because the computed batch size is 0)
exactly when the listing yields zero `.jsonl.gz` URIs; with at least one URI
it runs to completion and returns its two artifacts. -/
theorem c9_zero_uris_fails (blobNames : List String) (w : ℚ)
    (jobOk : List String → Except String Unit) :
    loadtobq_main blobNames w jobOk = none
      ↔ blobNames.filter (fun b => strEnds b ".jsonl.gz") = [] := by
  unfold loadtobq_main
  have hmain : ∀ xs : List String, (makeBatches xs = none ↔ xs = []) := by
    intro xs
    unfold makeBatches ceilDivNat MAX_TOTAL_LOAD_JOBS
    constructor
    · intro h
      split at h
      · rename_i hz
        have : xs.length + 1500 - 1 < 1500 := by
          by_contra hge
          have : 1 ≤ (xs.length + 1500 - 1) / 1500 :=
            (Nat.le_div_iff_mul_le (by omega)).2 (by omega)
          omega
        have hlen : xs.length = 0 := by omega
        exact List.length_eq_zero.1 hlen
      · exact Option.noConfusion h
    · intro h
      subst h
      simp
  cases hmb : makeBatches ((blobNames.filter fun b => strEnds b ".jsonl.gz").map
      fun b => "gs://" ++ BUCKET_NAME ++ "/" ++ b) with
  | none =>
      simp only [hmb]
      have := (hmain _).1 hmb
      have hfe : blobNames.filter (fun b => strEnds b ".jsonl.gz") = [] :=
        List.map_eq_nil_iff.1 this
      simp [hfe]
  | some bs =>
      simp only [hmb]
      constructor
      · intro h
        exact Option.noConfusion h
      · intro h
        have : makeBatches ((blobNames.filter fun b => strEnds b ".jsonl.gz").map
            fun b => "gs://" ++ BUCKET_NAME ++ "/" ++ b) = none := by
          rw [(hmain _).2 (by rw [h]; rfl)]
        rw [this] at hmb
        exact Option.noConfusion hmb

/-- C6 (counterexample): a worker whose load job fails does not sleep the
computed throttle delay before returning — the exception path returns
immediately (slept 0), while the delay floor is 10 seconds (pool width 8
here). -/
theorem c6_counterexample :
    (upload_batch_to_bq 8 (Except.error "quota exceeded")
        ["gs://crossref/processed_for_bq/a.jsonl.gz"]).2
      ≠ DELAY_BETWEEN_BATCHES 8 := by
  unfold upload_batch_to_bq DELAY_BETWEEN_BATCHES TABLE_UPDATE_LIMIT_PER_10S
  intro h
  rw [max_eq_right (by norm_num)] at h
  norm_num at h

/-- C6 (amended): the per-batch throttle delay equals
`max((poolWidth / N) × T, 10)` for the N = 100 updates per T = 10 seconds
ceiling — hence is at least each of the two bounds — and a load worker
sleeps that delay after terminal success only; on terminal failure it
returns its outcome immediately without sleeping. -/
theorem c6_throttle_delay (w : ℚ) (res : Except String Unit) (uris : List String) :
    DELAY_BETWEEN_BATCHES w ≥ (w / TABLE_UPDATE_LIMIT_PER_10S) * 10 ∧
    DELAY_BETWEEN_BATCHES w ≥ 10 ∧
    (upload_batch_to_bq w res uris).2
      = (match res with
          | .ok _ => DELAY_BETWEEN_BATCHES w
          | .error _ => 0) := by
  refine ⟨le_max_left _ _, le_max_right _ _, ?_⟩
  cases res <;> rfl

/-- C7: every fault during load-job submission or completion wait is
converted into a failed LoadOutcome carrying the batch URIs and the error
text (never propagated — the model worker is total), and the persisted
retry ledger is exactly the concatenation of the URIs of the failed batches;
in particular a 120-URI ledger at batch size 50 forms batches of sizes
50/50/20, and when exactly the middle batch fails the new ledger holds
exactly that batch's 50 URIs. -/
theorem c7_retry_failure_ledger :
    (∀ (w : ℚ) (jobOk : List String → Except String Unit) (failed_files : List String),
      (loadtobq_retry_main failed_files w jobOk).1
        = ((chunkList FILES_PER_BATCH failed_files).filter
            fun b => !(isOkResult (jobOk b))).flatten) ∧
    (∀ (w : ℚ) (b : List String) (e : String),
      (upload_batch_to_bq w (Except.error e) b).1 = ⟨b, false, some e⟩) ∧
    ((chunkList FILES_PER_BATCH ((List.range 120).map toString)).map List.length
      = [50, 50, 20]) ∧
    ((loadtobq_retry_main ((List.range 120).map toString) 8
        (fun b => if "50" ∈ b then Except.error "boom" else Except.ok ())).1
      = (List.range' 50 50).map toString) := by
  refine ⟨?_, fun w b e => rfl, by decide, by decide⟩
  intro w jobOk failed_files
  show ((((chunkList FILES_PER_BATCH failed_files).map fun batch =>
      (upload_batch_to_bq w (jobOk batch) batch).1).filter fun r => !r.success).map
      fun r => r.uris).flatten = _
  rw [List.filter_map, List.map_map]
  have hpred : ∀ b ∈ chunkList FILES_PER_BATCH failed_files,
      ((fun r => !r.success) ∘ fun batch =>
        (upload_batch_to_bq w (jobOk batch) batch).1) b = !(isOkResult (jobOk b)) := by
    intro b _
    cases h : jobOk b <;> simp [upload_batch_to_bq, isOkResult, h]
  rw [List.filter_congr hpred]
  have hid : ∀ b ∈ (chunkList FILES_PER_BATCH failed_files).filter
      (fun b => !(isOkResult (jobOk b))),
      ((fun r => r.uris) ∘ fun batch => (upload_batch_to_bq w (jobOk batch) batch).1) b
        = id b := by
    intro b _
    cases h : jobOk b <;> simp [upload_batch_to_bq, h]
  rw [List.map_congr_left hid, List.map_id]

/-- C1: running the Dedup Upload Orchestrator twice over the same source
tree, destination prefix, store and (deterministic) upload behaviour:
on the second run (i) every task whose base identifier is in the pre-fetched
dedup index resolves to Skipped (before any processing or upload — Skipped
is decided first), (ii) no task reaches a successful upload (zero new
uploads), (iii) the object store is identical before and after the second
run, and (iv) the run's return value is the count of Success outcomes.
The filename hypothesis states what `os.walk` guarantees: entries carry no
path separator. -/
theorem c1_second_run_idempotent (files : List SourceFile) (destFolder : String)
    (uploadOk : String → Bool) (s₀ : GCS)
    (hfn : ∀ f ∈ files, ∀ c ∈ f.filename.data, c ≠ '/') :
    (∀ p ∈ (files.filter fun f => strEnds f.filename ".jsonl.gz").zip
        (parallel_process_and_upload files destFolder uploadOk
          (parallel_process_and_upload files destFolder uploadOk s₀).store).outcomes,
      baseId p.1 ∈ list_processed_files_in_gcs
          (parallel_process_and_upload files destFolder uploadOk s₀).store
          (folderPrefOf destFolder) →
      p.2 = WStatus.skipped) ∧
    ¬ WStatus.success ∈ (parallel_process_and_upload files destFolder uploadOk
        (parallel_process_and_upload files destFolder uploadOk s₀).store).outcomes ∧
    (parallel_process_and_upload files destFolder uploadOk
        (parallel_process_and_upload files destFolder uploadOk s₀).store).store
      = (parallel_process_and_upload files destFolder uploadOk s₀).store ∧
    (parallel_process_and_upload files destFolder uploadOk
        (parallel_process_and_upload files destFolder uploadOk s₀).store).successCount
      = ((parallel_process_and_upload files destFolder uploadOk
          (parallel_process_and_upload files destFolder uploadOk s₀).store).outcomes.filter
          fun st => st = WStatus.success).length := by
  have hr2out : (parallel_process_and_upload files destFolder uploadOk
        (parallel_process_and_upload files destFolder uploadOk s₀).store).outcomes
      = (runTasks destFolder uploadOk
          (list_processed_files_in_gcs
            (parallel_process_and_upload files destFolder uploadOk s₀).store
            (folderPrefOf destFolder))
          (files.filter fun f => strEnds f.filename ".jsonl.gz")
          (parallel_process_and_upload files destFolder uploadOk s₀).store).1 := rfl
  have hmapstat : (parallel_process_and_upload files destFolder uploadOk
        (parallel_process_and_upload files destFolder uploadOk s₀).store).outcomes
      = (files.filter fun f => strEnds f.filename ".jsonl.gz").map
          (workerStatus destFolder uploadOk
            (list_processed_files_in_gcs
              (parallel_process_and_upload files destFolder uploadOk s₀).store
              (folderPrefOf destFolder))) := by
    rw [hr2out, runTasks_fst]
  have hnostep : ∀ f ∈ files.filter (fun g => strEnds g.filename ".jsonl.gz"),
      ¬ (¬ baseId f ∈ list_processed_files_in_gcs
            (parallel_process_and_upload files destFolder uploadOk s₀).store
            (folderPrefOf destFolder)
        ∧ willUpload destFolder uploadOk f = true) := by
    rintro f hf ⟨hnot, hw⟩
    exact hnot (first_run_covers files destFolder uploadOk s₀ hfn f hf hw)
  refine ⟨?_, ?_, ?_, ?_⟩
  · intro p hp hmem
    rw [hmapstat] at hp
    rw [zip_map_self _ _ p hp]
    unfold workerStatus
    rw [if_pos hmem]
  · intro hsucc
    rw [hmapstat] at hsucc
    rcases List.mem_map.1 hsucc with ⟨f, hf, hst⟩
    obtain ⟨h1, h2⟩ := workerStatus_eq_success hst
    exact hnostep f hf ⟨h1, h2⟩
  · show (runTasks destFolder uploadOk _ _ _).2 = _
    exact runTasks_store_fixed _ _ _ _ _ hnostep
  · show ((parallel_process_and_upload files destFolder uploadOk
        (parallel_process_and_upload files destFolder uploadOk s₀).store).outcomes.foldl
          countOutcome ⟨0, 0, 0, 0, 0⟩).processed_count = _
    rw [foldl_countOutcome_processed]
    simp

theorem c1_second_run_idempotent_witness :
    ¬ WStatus.success ∈ (parallel_process_and_upload
        [⟨[], "a.jsonl.gz", some [LineContent.doc (Json.obj [])]⟩] "processed_for_bq"
        (fun _ => true)
        (parallel_process_and_upload
          [⟨[], "a.jsonl.gz", some [LineContent.doc (Json.obj [])]⟩] "processed_for_bq"
          (fun _ => true) []).store).outcomes ∧
    (parallel_process_and_upload
        [⟨[], "a.jsonl.gz", some [LineContent.doc (Json.obj [])]⟩] "processed_for_bq"
        (fun _ => true)
        (parallel_process_and_upload
          [⟨[], "a.jsonl.gz", some [LineContent.doc (Json.obj [])]⟩] "processed_for_bq"
          (fun _ => true) []).store).store
      = (parallel_process_and_upload
          [⟨[], "a.jsonl.gz", some [LineContent.doc (Json.obj [])]⟩] "processed_for_bq"
          (fun _ => true) []).store ∧
    (parallel_process_and_upload
        [⟨[], "a.jsonl.gz", some [LineContent.doc (Json.obj [])]⟩] "processed_for_bq"
        (fun _ => true)
        (parallel_process_and_upload
          [⟨[], "a.jsonl.gz", some [LineContent.doc (Json.obj [])]⟩] "processed_for_bq"
          (fun _ => true) []).store).successCount
      = ((parallel_process_and_upload
          [⟨[], "a.jsonl.gz", some [LineContent.doc (Json.obj [])]⟩] "processed_for_bq"
          (fun _ => true)
          (parallel_process_and_upload
            [⟨[], "a.jsonl.gz", some [LineContent.doc (Json.obj [])]⟩] "processed_for_bq"
            (fun _ => true) []).store).outcomes.filter
          fun st => st = WStatus.success).length :=
  (c1_second_run_idempotent
    [⟨[], "a.jsonl.gz", some [LineContent.doc (Json.obj [])]⟩] "processed_for_bq"
    (fun _ => true) [] (by decide)).2

end Crossref
